import Mathlib

/-!
Verification development for the QLens repository.

Shallow embedding of the parts of the code base that the checked claims
talk about:

* the content-addressed blob stores (`src/src/blob/sled_blob.rs`,
  `src/src/blob/redb_blob.rs`),
* the Base36 asset identifier (`src/src/blob/asset_id.rs`),
* the in-band tool-call stream parser and history append logic
  (`src/src/chat_handler.rs`),
* the per-connection stream forwarder (`src/crates/backend/src/http_core.rs`),
* the sandboxed interpreter's blob-write quota
  (`src/src/tools/code_interpreter.rs`).

Rust `String` values are embedded as `List Char` (Rust strings are valid
UTF-8 and every chunk boundary in the code is a `char` boundary); byte
positions are recovered through `Char.utf8Size` where the code does byte
arithmetic.  Keyed trees/tables are embedded as functions `Nat → Option α`
(keys are identified with naturals).  External collaborators (the blake3
hash, the whatlang detector, image/SVG codecs) are taken as parameters,
matching the spec's scope section.
-/

set_option maxHeartbeats 1600000
set_option maxRecDepth 40000

namespace QLens

/-! ## Generic finite-map helpers (embedding of sled trees / redb tables) -/

def upd {α : Type} (m : Nat → Option α) (k : Nat) (v : α) : Nat → Option α :=
  fun x => if x = k then some v else m x

def del {α : Type} (m : Nat → Option α) (k : Nat) : Nat → Option α :=
  fun x => if x = k then none else m x

/-! ## Blob stores

`BlobState` is the pair of keyspaces every logical blob store owns:
`data : AssetId → bytes` and `rc : AssetId → u64` (big-endian u64 values
are embedded by their numeric value).  Bytes are `List Nat`.
The content hash (`AssetId::from_data`, blake3 truncated to 20 bytes) is
an external function and is passed as a parameter `h`.
-/

structure BlobState where
  data : Nat → Option (List Nat)
  rc : Nat → Option Nat

def emptyBlob : BlobState := ⟨fun _ => none, fun _ => none⟩

namespace SledBlob

/-- Embedding of `SledBlobStorage::save` (sled_blob.rs lines 27-52): inside
one transaction, if the data tree already holds the key, bump the refcount
(absent counter read as 0); otherwise insert the data and set the counter
to 1.  Returns the id. -/
def save (h : List Nat → Nat) (s : BlobState) (x : List Nat) : BlobState × Nat :=
  let key := h x
  if (s.data key).isSome then
    ({ s with rc := upd s.rc key ((s.rc key).getD 0 + 1) }, key)
  else
    ({ data := upd s.data key x, rc := upd s.rc key 1 }, key)

/-- Embedding of `SledBlobStorage::retain` (sled_blob.rs lines 54-70):
`update_and_fetch` on the rc tree, absent counter read as 0, then +1. -/
def retain (s : BlobState) (key : Nat) : BlobState :=
  { s with rc := upd s.rc key ((s.rc key).getD 0 + 1) }

/-- Embedding of `SledBlobStorage::release` (sled_blob.rs lines 72-101):
if a counter exists and is ≤ 1, remove counter and data and return `true`;
if it exists and is > 1, decrement and return `false`; if no counter
exists, do nothing and return `false`. -/
def release (s : BlobState) (key : Nat) : BlobState × Bool :=
  match s.rc key with
  | some count =>
      if count ≤ 1 then
        ({ data := del s.data key, rc := del s.rc key }, true)
      else
        ({ s with rc := upd s.rc key (count - 1) }, false)
  | none => (s, false)

end SledBlob

namespace RedbBlob

/-- Embedding of `RedbBlobStorage::save` (redb_blob.rs lines 38-87): in one
write transaction, look up the *refcount* table; if a counter is present
the new counter is `old + 1` and the data table is not touched; otherwise
the data is inserted and the counter set to 1. -/
def save (h : List Nat → Nat) (s : BlobState) (x : List Nat) : BlobState × Nat :=
  let key := h x
  match s.rc key with
  | some rcv => ({ s with rc := upd s.rc key (rcv + 1) }, key)
  | none => ({ data := upd s.data key x, rc := upd s.rc key 1 }, key)

/-- Embedding of `RedbBlobStorage::retain` (redb_blob.rs lines 163-188):
counter read with `unwrap_or(0)`, then +1. -/
def retain (s : BlobState) (key : Nat) : BlobState :=
  { s with rc := upd s.rc key ((s.rc key).getD 0 + 1) }

/-- Embedding of `RedbBlobStorage::release` (redb_blob.rs lines 115-161):
the counter is read with `unwrap_or(0)`; if it is ≤ 1 both rows are
removed and `true` is returned (also when no counter existed at all),
otherwise the counter is decremented and `false` returned. -/
def release (s : BlobState) (key : Nat) : BlobState × Bool :=
  let current := (s.rc key).getD 0
  if current ≤ 1 then
    ({ data := del s.data key, rc := del s.rc key }, true)
  else
    ({ s with rc := upd s.rc key (current - 1) }, false)

end RedbBlob

/-! ## String helpers

Rust strings are embedded as `List Char`.  `utf8Len` recovers the byte
length (`str::len`), `findSub` is `str::find` for a literal pattern
(returning the index of the first occurrence; Rust returns a byte index,
which for the patterns used here always sits on a `char` boundary, so the
char index determines it), `splitBound` is the backward walk to a UTF-8
boundary expressed as "longest char prefix whose byte length stays within
the target". -/

def utf8Len (l : List Char) : Nat := (l.map Char.utf8Size).sum

def findSub (l p : List Char) : Option Nat :=
  match l with
  | [] => if p.isPrefixOf ([] : List Char) then some 0 else none
  | c :: rest =>
    if p.isPrefixOf (c :: rest) then some 0
    else (findSub rest p).map (· + 1)

def splitBound : List Char → Nat → Nat
  | [], _ => 0
  | c :: cs, t => if c.utf8Size ≤ t then splitBound cs (t - c.utf8Size) + 1 else 0

/-- Unicode `White_Space` property, as used by Rust's `char::is_whitespace`. -/
def isWS (c : Char) : Bool :=
  (9 ≤ c.toNat && c.toNat ≤ 13) || c.toNat = 32 || c.toNat = 0x85 || c.toNat = 0xA0 ||
  c.toNat = 0x1680 || (0x2000 ≤ c.toNat && c.toNat ≤ 0x200A) || c.toNat = 0x2028 ||
  c.toNat = 0x2029 || c.toNat = 0x202F || c.toNat = 0x205F || c.toNat = 0x3000

def dropEndWhile (p : Char → Bool) (l : List Char) : List Char :=
  (l.reverse.dropWhile p).reverse

/-- Rust `str::trim_matches`-style trimming from both ends (`trim` is
`trimEnds isWS`). -/
def trimEnds (p : Char → Bool) (l : List Char) : List Char :=
  dropEndWhile p (l.dropWhile p)

/-- The stripping applied to tool names and args in `stream_chat_response`
(chat_handler.rs lines 500-504 and 530-534):
`.trim().trim_matches(':').trim_matches('：').trim()`. -/
def stripTok (l : List Char) : List Char :=
  trimEnds isWS (trimEnds (fun c => c = '：') (trimEnds (fun c => c = ':') (trimEnds isWS l)))

/-! ## Sentinels of the in-band tool-call protocol (tools/mod.rs lines 221-228) -/

def FN_NAME : List Char := "✿FUNCTION✿".data

def FN_ARGS : List Char := "✿ARGS✿".data

def FN_RESULT : List Char := "✿RESULT✿".data

def FN_EXIT : List Char := "✿RETURN✿".data

def FN_STOP_WORDS : List (List Char) := [FN_NAME, FN_ARGS, FN_RESULT, FN_EXIT]

/-- `FN_MAX_LEN = FN_NAME.len() * 2 + 6` — byte lengths (tools/mod.rs line 221). -/
def FN_MAX_LEN : Nat := utf8Len FN_NAME * 2 + 6

/-! ## Message schema

`src/src/lib.rs` declares `mod schema` but `schema.rs` is not present in
the source tree; the types below are modelled from the spec.

Modelled from the spec: §3 DATA MODEL — `Role`, `MessageContent`,
`ToolUse`, `Message`, `ChatEntry` (`summary` set once from the first user
message, `messages` append ordered).  Identifiers (UUIDs, AssetIds) are
embedded as `Nat`. -/

inductive Role where
  | system
  | user
  | assistant
  | tools (useId : Nat)
deriving DecidableEq, Repr

inductive MessageContent where
  | text (s : List Char)
  | imageRef (id : Nat) (label : List Char)
  | imageBin (bytes : List Nat) (id : Nat) (label : List Char)
  | assetRef (id : Nat) (label : List Char)
deriving DecidableEq, Repr

structure ToolUse where
  use_id : Nat
  function_name : List Char
  args : List Char
deriving DecidableEq, Repr

structure Message where
  id : Nat
  owner : Role
  content : List MessageContent
  reasoning : List MessageContent
  tool_use : List ToolUse
deriving DecidableEq, Repr

structure ChatEntry where
  id : Nat
  created_at : Nat
  summary : List Char
  messages : List Message
deriving DecidableEq, Repr

/-- Modelled from the spec: `ChatEntry::default()` mints a fresh
time-ordered id and starts with an empty summary and no messages (§3
ChatEntry; the id and creation time come from the clock and are
overwritten by every caller in scope here, so they are fixed to 0). -/
def ChatEntry.defaultEntry : ChatEntry :=
  { id := 0, created_at := 0, summary := [], messages := [] }

/-! ## ChatEvent (chat_handler.rs lines 111-141)

`ToolCall`/`ToolResult` carry a `ToolUse` whose `use_id` is freshly random
(`Uuid::new_v4`); the parser-level claims only concern `function_name` and
`args`, so events carry those two fields (ids are external randomness). -/

inductive ChatEvent where
  | reasoningDelta (s : List Char)
  | toolDelta (s : List Char)
  | toolCall (name args : List Char)
  | toolResult (name args : List Char) (result : Message)
  | contentDelta (s : List Char)
  | streamEnd
  | usage (promptTokens completionTokens : Nat)
  | error (msg : List Char)
deriving DecidableEq, Repr

/-! ## The streaming tool-call parser

Embedding of the state machine inside `stream_chat_response`
(chat_handler.rs lines 409-594).  The mutable locals
(`state`, `parse_buffer`, `assistant_thinking`, `assistant_reasoning`,
`assistant_content`, `current_tool_name`) become fields of `PState`;
yielded events are accumulated in `events`. -/

inductive ParseState where
  | awaitingDecision
  | content
  | toolCallName
  | toolCallArgs
deriving DecidableEq, Repr

structure PState where
  state : ParseState
  buf : List Char
  thinking : List Char
  reasoning : List Char
  contentAcc : List Char
  curName : List Char
  events : List ChatEvent
deriving DecidableEq, Repr

def initPState : PState :=
  { state := .awaitingDecision, buf := [], thinking := [], reasoning := [],
    contentAcc := [], curName := [], events := [] }

/-- The earliest stop word in the buffer (chat_handler.rs lines 521-524):
each tag's first occurrence, minimised by index (Rust `min_by_key` keeps
the first of equal keys; ties are impossible for these tags). -/
def minStop (t : List Char) : Option (Nat × List Char) :=
  (FN_STOP_WORDS.filterMap (fun tag => (findSub t tag).map (fun i => (i, tag)))).foldl
    (fun acc c =>
      match acc with
      | none => some c
      | some b => if c.1 < b.1 then some c else some b) none

/-- One iteration of the labelled `'parse_loop` (chat_handler.rs lines
434-562).  `chunk` is the `content` of the incoming stream delta (the
`ToolCallArgs` arm re-emits it as a `ToolDelta` on every iteration).
Returns the successor state and whether the loop continues (`false` =
`break 'parse_loop`). -/
def stepParse (chunk : List Char) (s : PState) : PState × Bool :=
  match s.state with
  | .awaitingDecision =>
    match findSub s.buf FN_NAME with
    | some idx =>
      let reasoningPart := s.buf.take idx
      let buf1 := s.buf.drop (idx + FN_NAME.length)
      let s1 :=
        if reasoningPart ≠ [] then
          if s.reasoning = [] then
            { s with contentAcc := s.contentAcc ++ reasoningPart,
                     events := s.events ++ [ChatEvent.contentDelta reasoningPart] }
          else
            { s with reasoning := s.reasoning ++ reasoningPart,
                     events := s.events ++ [ChatEvent.reasoningDelta reasoningPart] }
        else s
      ({ s1 with buf := buf1,
                 events := s1.events ++ [ChatEvent.toolDelta FN_NAME],
                 state := .toolCallName }, true)
    | none =>
      if FN_MAX_LEN < utf8Len s.buf then
        let k := splitBound s.buf (utf8Len s.buf - FN_MAX_LEN / 2)
        if 0 < k then
          let part := s.buf.take k
          let s1 :=
            if s.reasoning = [] then
              { s with contentAcc := s.contentAcc ++ part,
                       events := s.events ++ [ChatEvent.contentDelta part] }
            else
              { s with thinking := s.thinking ++ part,
                       events := s.events ++ [ChatEvent.reasoningDelta part] }
          ({ s1 with buf := s.buf.drop k }, true)
        else
          -- Unreachable: a buffer longer than FN_MAX_LEN bytes always has a
          -- non-empty prefix within the target (chars are at most 4 bytes).
          (s, false)
      else (s, false)
  | .content =>
    -- Dead state, never entered (kept for structural fidelity with the enum).
    if s.buf ≠ [] then
      ({ s with buf := [],
                contentAcc := s.contentAcc ++ s.buf,
                events := s.events ++ [ChatEvent.contentDelta s.buf] }, false)
    else (s, false)
  | .toolCallName =>
    match findSub s.buf FN_ARGS with
    | some idx =>
      let nameRaw := s.buf.take idx
      let buf1 := s.buf.drop (idx + FN_ARGS.length)
      let delta := nameRaw ++ FN_ARGS
      ({ s with buf := buf1,
                curName := stripTok nameRaw,
                reasoning := s.reasoning ++ delta,
                events := s.events ++ [ChatEvent.toolDelta delta],
                state := .toolCallArgs }, true)
    | none => (s, false)
  | .toolCallArgs =>
    let s0 := { s with events := s.events ++ [ChatEvent.toolDelta chunk] }
    match minStop s.buf with
    | some (idx, tag) =>
      let argsRaw := s.buf.take idx
      let buf1 := s.buf.drop (idx + tag.length)
      let args := stripTok argsRaw
      let s1 := { s0 with buf := buf1,
                          reasoning := s0.reasoning ++ argsRaw,
                          events := s0.events ++ [ChatEvent.toolCall s.curName args] }
      let s2 :=
        if tag ≠ FN_EXIT then { s1 with events := s1.events ++ [ChatEvent.toolDelta tag] } else s1
      ({ s2 with state := if tag = FN_NAME then .toolCallName else .awaitingDecision }, true)
    | none => (s0, false)

/-- Fuelled driver of the parse loop; every continuing step strictly
shrinks the buffer, so `buf.length + 1` fuel reaches the break. -/
def loopGo (chunk : List Char) : Nat → PState → PState
  | 0, s => s
  | fuel + 1, s =>
    match stepParse chunk s with
    | (s1, true) => loopGo chunk fuel s1
    | (s1, false) => s1

/-- Processing of one `delta.content` chunk (chat_handler.rs line 433:
`parse_buffer.push_str(content)` followed by the parse loop). -/
def feedChunk (s : PState) (chunk : List Char) : PState :=
  loopGo chunk ((s.buf ++ chunk).length + 1) { s with buf := s.buf ++ chunk }

/-- End-of-stream flush (chat_handler.rs lines 564-594). -/
def finishTurn (s : PState) : PState :=
  match s.state with
  | .awaitingDecision | .content | .toolCallName =>
    if s.buf ≠ [] then
      if s.reasoning = [] then
        { s with buf := [], contentAcc := s.contentAcc ++ s.buf,
                 events := s.events ++ [ChatEvent.contentDelta s.buf] }
      else
        { s with buf := [], thinking := s.thinking ++ s.buf,
                 events := s.events ++ [ChatEvent.reasoningDelta s.buf] }
    else s
  | .toolCallArgs =>
    { s with buf := [],
             reasoning := s.reasoning ++ s.buf,
             events := s.events ++ [ChatEvent.toolDelta s.buf, ChatEvent.toolCall s.curName (stripTok s.buf)] }

/-- A whole model turn: feed the content chunks in order, then flush. -/
def runParser (chunks : List (List Char)) : PState :=
  finishTurn (chunks.foldl feedChunk initPState)

def toolCallsOf (evs : List ChatEvent) : List (List Char × List Char) :=
  evs.filterMap (fun e =>
    match e with
    | .toolCall n a => some (n, a)
    | _ => none)

/-! ## Reference whole-input parser

`refCalls m t` computes which tool calls the state machine will extract
from the *complete* remaining input `t` when it currently sits in mode
`m`.  It is a proof device relating the chunked parser to the grammar;
the guards `hq` are always satisfied (a found pattern fits inside the
text) and only serve the termination argument. -/

inductive RefMode where
  | await
  | name
  | args (toolName : List Char)
deriving DecidableEq, Repr

def refCalls : RefMode → List Char → List (List Char × List Char)
  | .await, t =>
    match findSub t FN_NAME with
    | none => []
    | some i =>
      if _hq : i + FN_NAME.length ≤ t.length then
        refCalls .name (t.drop (i + FN_NAME.length))
      else []
  | .name, t =>
    match findSub t FN_ARGS with
    | none => []
    | some i =>
      if _hq : i + FN_ARGS.length ≤ t.length then
        refCalls (.args (stripTok (t.take i))) (t.drop (i + FN_ARGS.length))
      else []
  | .args n, t =>
    match minStop t with
    | none => [(n, stripTok t)]
    | some (i, tag) =>
      if _hq : i + tag.length ≤ t.length ∧ 0 < tag.length then
        (n, stripTok (t.take i)) ::
          refCalls (if tag = FN_NAME then .name else .await) (t.drop (i + tag.length))
      else [(n, stripTok (t.take i))]
termination_by _ t => t.length
decreasing_by
  · simp only [List.length_drop]
    have h10 : 0 < FN_NAME.length := by decide
    omega
  · simp only [List.length_drop]
    have h6 : 0 < FN_ARGS.length := by decide
    omega
  · simp only [List.length_drop]
    obtain ⟨hq1, hq2⟩ := _hq
    omega

/-- Projection of the parser state to the reference mode (the dead
`content` state maps to `await`; it is never reached). -/
def modeOf (s : PState) : RefMode :=
  match s.state with
  | .awaitingDecision => .await
  | .content => .await
  | .toolCallName => .name
  | .toolCallArgs => .args s.curName

/-! ## Grammar of well-formed streams (spec §4.4)

A stream is pre-text plus an optional sequence of calls.  After `FN_NAME`
the shape is described by `CallsFrom`: a call is a name, `FN_ARGS`, args,
and then either end of stream (`last`), a closing sentinel with trailing
text (`closed`/`closedThen`), or directly the next call via an `FN_NAME`
terminator (`chained`). -/

inductive CloseTag where
  | result
  | exit
deriving DecidableEq, Repr

def CloseTag.render : CloseTag → List Char
  | .result => FN_RESULT
  | .exit => FN_EXIT

inductive CallsFrom where
  | last (nm args : List Char)
  | closed (nm args : List Char) (tag : CloseTag) (post : List Char)
  | closedThen (nm args : List Char) (tag : CloseTag) (post : List Char) (next : CallsFrom)
  | chained (nm args : List Char) (next : CallsFrom)
deriving DecidableEq, Repr

def renderCallsFrom : CallsFrom → List Char
  | .last nm a => nm ++ FN_ARGS ++ a
  | .closed nm a tag post => nm ++ FN_ARGS ++ a ++ tag.render ++ post
  | .closedThen nm a tag post next =>
      nm ++ FN_ARGS ++ a ++ tag.render ++ post ++ FN_NAME ++ renderCallsFrom next
  | .chained nm a next => nm ++ FN_ARGS ++ a ++ FN_NAME ++ renderCallsFrom next

def renderStream (pre : List Char) : Option CallsFrom → List Char
  | none => pre
  | some c => pre ++ FN_NAME ++ renderCallsFrom c

/-- The calls a well-formed stream carries, with the name/args stripping
the parser applies. -/
def expectedCalls : CallsFrom → List (List Char × List Char)
  | .last nm a => [(stripTok nm, stripTok a)]
  | .closed nm a _ _ => [(stripTok nm, stripTok a)]
  | .closedThen nm a _ _ next => (stripTok nm, stripTok a) :: expectedCalls next
  | .chained nm a next => (stripTok nm, stripTok a) :: expectedCalls next

def expectedStream : Option CallsFrom → List (List Char × List Char)
  | none => []
  | some c => expectedCalls c

def flower : Char := '✿'

/-- Well-formedness: plain text, names and args carry no `✿`, the marker
character every sentinel starts and ends with. -/
def noFlower (l : List Char) : Bool := l.all (fun c => c ≠ flower)

def wfCalls : CallsFrom → Bool
  | .last nm a => noFlower nm && noFlower a
  | .closed nm a _ post => noFlower nm && noFlower a && noFlower post
  | .closedThen nm a _ post next => noFlower nm && noFlower a && noFlower post && wfCalls next
  | .chained nm a next => noFlower nm && noFlower a && wfCalls next

def wfStream (pre : List Char) : Option CallsFrom → Bool
  | none => noFlower pre
  | some c => noFlower pre && wfCalls c

/-! ## AssetId (asset_id.rs)

An `AssetId` is 20 bytes, embedded as a `List Nat` of length 20 with
entries below 256.  `BigUint::from_bytes_be` is `fromBytesBE`;
`to_str_radix(36)` / `from_str_radix(·, 36)` are embedded through
`Nat.digits`. -/

inductive AssetIdErr where
  | invalidBase36
  | overflow
deriving DecidableEq, Repr

def fromBytesBE (bs : List Nat) : Nat := bs.foldl (fun a b => a * 256 + b) 0

/-- Minimal big-endian bytes of a natural (`BigUint::to_bytes_be`; zero
renders as a single zero byte). -/
def toBytesBE (n : Nat) : List Nat :=
  if n = 0 then [0] else (Nat.digits 256 n).reverse

/-- Digit characters produced by `to_str_radix` (lowercase). -/
def digitChar36 (d : Nat) : Char :=
  if d < 10 then Char.ofNat (48 + d) else Char.ofNat (87 + d)

/-- Digit values accepted by `from_str_radix` (via `char::to_digit`, which
accepts both cases). -/
def charVal36 (c : Char) : Option Nat :=
  if 48 ≤ c.toNat ∧ c.toNat ≤ 57 then some (c.toNat - 48)
  else if 97 ≤ c.toNat ∧ c.toNat ≤ 122 then some (c.toNat - 87)
  else if 65 ≤ c.toNat ∧ c.toNat ≤ 90 then some (c.toNat - 55)
  else none

def isDigit36 (c : Char) : Bool := (charVal36 c).isSome

/-- `BigUint::to_str_radix(36)` (zero renders as "0"). -/
def toStrRadix36 (n : Nat) : List Char :=
  if n = 0 then ['0'] else (Nat.digits 36 n).reverse.map digitChar36

/-- `format!("{:0>31}", s)` — left-pad with '0' to width 31. -/
def padLeft31 (s : List Char) : List Char := List.replicate (31 - s.length) '0' ++ s

/-- The hyphen grouping of `to_base36_string` (asset_id.rs lines 42-53):
`padded[0..6] - padded[6..12] - padded[12..18] - padded[18..24] - padded[24..31]`. -/
def groupedBase36 (p : List Char) : List Char :=
  p.take 6 ++ ['-'] ++ (p.drop 6).take 6 ++ ['-'] ++ (p.drop 12).take 6 ++ ['-'] ++
    (p.drop 18).take 6 ++ ['-'] ++ (p.drop 24).take 7

/-- Embedding of `AssetId::to_base36_string` (asset_id.rs lines 33-54). -/
def to_base36_string (id : List Nat) : List Char :=
  groupedBase36 (padLeft31 (toStrRadix36 (fromBytesBE id)))

/-- `str::trim_start_matches(pre)` — strip every leading repetition of
`pre` (fuelled; each strip shortens the text, so `s.length` fuel is
enough, and with the condition false the result is `s` for any fuel). -/
def stripLeadGo : Nat → List Char → List Char → List Char
  | 0, _, s => s
  | fuel + 1, pre, s =>
    if pre ≠ [] ∧ pre.isPrefixOf s then stripLeadGo fuel pre (s.drop pre.length) else s

def stripLead (pre s : List Char) : List Char := stripLeadGo s.length pre s

/-- `BigUint::from_str_radix(raw, 36)`: empty or non-digit input is an
error. -/
def parseBase36 (raw : List Char) : Option Nat :=
  if raw = [] then none
  else
    raw.foldl
      (fun acc c =>
        match acc, charVal36 c with
        | some a, some d => some (a * 36 + d)
        | _, _ => none)
      (some 0)

/-- Embedding of `AssetId::from_str` (asset_id.rs lines 69-93): trim,
strip `asset-`/`asset/` prefixes, trim, strip `image-`/`image/`, remove
all hyphens, parse Base36, reject more than 20 bytes as overflow,
left-pad the bytes to 20. -/
def assetIdFromStr (s : List Char) : Except AssetIdErr (List Nat) :=
  let clean1 := stripLead "asset/".data (stripLead "asset-".data (trimEnds isWS s))
  let clean := stripLead "image/".data (stripLead "image-".data (trimEnds isWS clean1))
  let raw := clean.filter (fun c => c ≠ '-')
  match parseBase36 raw with
  | none => .error .invalidBase36
  | some n =>
    let bytes := toBytesBE n
    if 20 < bytes.length then .error .overflow
    else .ok (List.replicate (20 - bytes.length) 0 ++ bytes)

/-! ## History append (chat_handler.rs lines 685-705 and 983-1025)

The sled `history` tree is modelled at the single key `chat_id`; buffers
hold deserialised `ChatEntry` values (serde round-trips, and any
serialised entry is longer than one byte, so the `buf.len() > 1` branch of
`append_message_to_buffer` always parses).  Interference by concurrent
writers is modelled by a schedule `casSees` giving the value the
`compare_and_swap` finds at each attempt. -/

def renderSummaryPart : MessageContent → List Char
  | .text s => s
  | .imageBin _ _ _ => "[IMG]".data
  | .imageRef _ _ => "[IMG]".data
  | .assetRef _ _ => "[BIN]".data

/-- Embedding of `append_message_to_buffer` (chat_handler.rs lines
983-1025). -/
def append_message_to_buffer (chatId : Nat) (oldBuf : Option ChatEntry) (content : Message) :
    ChatEntry :=
  let vec : ChatEntry :=
    match oldBuf with
    | some buf => buf
    | none => { ChatEntry.defaultEntry with id := chatId }
  let vec :=
    if content.owner = .user ∧ vec.summary.length = 0 then
      { vec with summary := ((content.content.map renderSummaryPart).flatten).take 64 }
    else vec
  { vec with messages := vec.messages ++ [content] }

/-- The `for _ in 0..10` CAS loop of `append_message`: `v` is what the
tree holds when the attempt runs.  On success the built buffer is
installed (second component); on conflict the buffer is rebuilt from the
observed value `v` — note the expected value stays the originally read
`old_buf`. -/
def casLoop (chatId : Nat) (msg : Message) (oldBuf : Option ChatEntry) :
    List (Option ChatEntry) → ChatEntry → ChatEntry × Option ChatEntry
  | [], cur => (cur, none)
  | v :: rest, cur =>
    if v = oldBuf then (cur, some cur)
    else casLoop chatId msg oldBuf rest (append_message_to_buffer chatId v msg)

/-- Embedding of `append_message` (chat_handler.rs lines 685-705): read
the buffer, build the appended buffer, try `compare_and_swap` up to 10
times (the expected value is always the initial read), and finally return
`Ok` of the last built buffer — whether or not any attempt succeeded. -/
def append_message (chatId : Nat) (readVal : Option ChatEntry) (casSees : Nat → Option ChatEntry)
    (msg : Message) : Except (List Char) ChatEntry × Option ChatEntry :=
  let oldBuf := readVal
  let first := append_message_to_buffer chatId oldBuf msg
  let r := casLoop chatId msg oldBuf ((List.range 10).map casSees) first
  (.ok r.1, r.2)

/-! ## LLM configuration and language pick (chat_handler.rs lines 36-91, 707-736) -/

/-- The `whatlang::Lang` values this development distinguishes; `Cmn` is
Mandarin Chinese.  The detector itself is external. -/
inductive Lang where
  | cmn
  | eng
  | jpn
  | kor
  | otherLang
deriving DecidableEq, Repr

structure LLMConfig where
  model : Option String
  temp : Option Float
  stream : Option Bool
  frequency_penalty : Option Float
  presence_penality : Option Float
  top_p : Option Float
  user : Option String
  seed : Option Int
  max_completion_tokens : Option Nat
  parallel_function_call : Option Bool
  system_prompt_lang : Option Lang
  custom_system_prompt : Option String

/-- Embedding of `LLMConfig::merge_in` (chat_handler.rs lines 56-71). -/
def LLMConfig.merge_in (self other : LLMConfig) : LLMConfig :=
  { model := self.model.or other.model
    temp := self.temp.or other.temp
    stream := self.stream.or other.stream
    frequency_penalty := self.frequency_penalty.or other.frequency_penalty
    presence_penality := self.presence_penality.or other.presence_penality
    top_p := self.top_p.or other.top_p
    user := self.user.or other.user
    seed := self.seed.or other.seed
    max_completion_tokens := self.max_completion_tokens.or other.max_completion_tokens
    parallel_function_call := self.parallel_function_call.or other.parallel_function_call
    system_prompt_lang := self.system_prompt_lang.or other.system_prompt_lang
    custom_system_prompt := self.custom_system_prompt.or other.custom_system_prompt }

/-- Embedding of `LLMConfig::default` (chat_handler.rs lines 74-91). -/
def LLMConfig.defaultConfig : LLMConfig :=
  { model := none
    temp := some 0.8
    stream := some true
    frequency_penalty := some 1.0
    presence_penality := none
    top_p := none
    user := none
    seed := none
    max_completion_tokens := none
    parallel_function_call := none
    system_prompt_lang := some .cmn
    custom_system_prompt := none }

/-- The text of a message as `message_to_openai` sees it: the
concatenation of its `Text` parts (`join("")`). -/
def userTextOf (m : Message) : List Char :=
  (m.content.filterMap (fun c =>
    match c with
    | .text s => some s
    | _ => none)).flatten

/-- Embedding of the language pick in `message_to_openai` (chat_handler.rs
lines 714-735): if the config carries a language use it, else concatenate
each user message's text parts, keep the non-empty ones, detect on the
last, fall back to `Cmn`. -/
def chooseLang (detect : List Char → Option Lang) (langCfg : Option Lang)
    (msgs : List Message) : Lang :=
  match langCfg with
  | some l => l
  | none =>
    (((((msgs.filter (fun m => m.owner == Role.user)).map userTextOf).filter
        (fun v => 0 < v.length)).getLast?).map detect).join.getD .cmn

/-- Spec-side description: the last user message whose concatenated text
is non-empty. -/
def lastNonEmptyUserText (msgs : List Message) : Option (List Char) :=
  (msgs.reverse.find? (fun m => m.owner == Role.user && !(userTextOf m).isEmpty)).map userTextOf

/-! ## Per-request stream forwarding (http_core.rs lines 99-163)

`handle_stream` forwards each stream item as a JSON packet onto the
per-connection channel; an `Abort` (lines 189-195) stops the `Abortable`
stream, after which the loop exits and the *unconditional* end packet
(lines 141-149) is still sent.  `abortAfter = some n` means the abort was
accepted after `n` items had been polled. -/

structure StreamPacket where
  chat_id : Nat
  request_id : Nat
  event : ChatEvent
deriving DecidableEq, Repr

def processItems (cid rid : Nat) : List (Except (List Char) ChatEvent) → List StreamPacket
  | [] => []
  | .ok e :: rest => ⟨cid, rid, e⟩ :: processItems cid rid rest
  | .error e :: _ => [⟨cid, rid, .error e⟩]

/-- Embedding of the `Ok(stream)` arm of `handle_stream`: forward the
items the abortable stream yields, then always send `StreamEnd`. -/
def handle_stream (cid rid : Nat) (items : List (Except (List Char) ChatEvent))
    (abortAfter : Option Nat) : List StreamPacket :=
  processItems cid rid
      (match abortAfter with
       | none => items
       | some n => items.take n) ++ [⟨cid, rid, .streamEnd⟩]

/-- The packets emitted for this request after the abort was accepted:
everything `handle_stream` sends beyond the packets already produced from
the polled prefix. -/
def sentAfterAbort (cid rid : Nat) (items : List (Except (List Char) ChatEvent)) (n : Nat) :
    List StreamPacket :=
  (handle_stream cid rid items (some n)).drop (processItems cid rid (items.take n)).length

/-! ## Sandboxed interpreter blob-write quota (code_interpreter.rs)

`Counter`/`MAX_BLOB_PUT_TRIES` (lines 142-146), `op_save_blob` (lines
219-260) and `op_save_svg` (lines 148-202).  Written blobs are recorded as
logs; image decoding and SVG rasterisation are external and appear as the
`guessOk`/`renderedPng` parameters. -/

def MAX_BLOB_PUT_TRIES : Nat := 20

inductive ImgError where
  | imageEmpty
  | invalidUuid
  | databaseError
  | maxTries (n : Nat)
  | invalidBase64
  | invalidSchema (s : List Char)
  | invalidSVG
  | imageIOError
deriving DecidableEq, Repr

inductive Schema where
  | asset
  | image
deriving DecidableEq, Repr

/-- Embedding of `Schema::parse` (code_interpreter.rs lines 209-217). -/
def Schema.parseStr (input : List Char) : Except ImgError Schema :=
  let t := (trimEnds isWS input).map Char.toLower
  if t = "asset".data ∨ t = "binary".data ∨ t = "bin".data then .ok .asset
  else if t = "image".data ∨ t = "img".data ∨ t = "svg".data ∨ t = "png".data ∨ t = "jpeg".data
    then .ok .image
  else .error (.invalidSchema input)

structure JsRunState where
  counter : Option Nat
  imageWrites : List (List Nat)
  assetWrites : List (List Nat)
deriving DecidableEq, Repr

def initJsRun : JsRunState := ⟨none, [], []⟩

def opSaveBlobWrite (s : JsRunState) (schema : Schema) (guessOk : Bool) (img : List Nat) :
    Except ImgError Unit × JsRunState :=
  match schema with
  | .image =>
    if guessOk then (.ok (), { s with imageWrites := s.imageWrites ++ [img] })
    else (.error .imageIOError, s)
  | .asset => (.ok (), { s with assetWrites := s.assetWrites ++ [img] })

/-- Embedding of `op_save_blob` (code_interpreter.rs lines 219-260).
`state.try_take::<Counter>()` removes the counter; on the `MaxTries`
early return it is never put back, so the state keeps no counter. -/
def op_save_blob (s : JsRunState) (schemaStr : List Char) (guessOk : Bool) (img : List Nat) :
    Except ImgError Unit × JsRunState :=
  match Schema.parseStr schemaStr with
  | .error e => (.error e, s)
  | .ok schema =>
    match s.counter with
    | some c =>
      if MAX_BLOB_PUT_TRIES ≤ c then (.error (.maxTries c), { s with counter := none })
      else opSaveBlobWrite { s with counter := some (c + 1) } schema guessOk img
    | none => opSaveBlobWrite { s with counter := some 1 } schema guessOk img

/-- Embedding of the blob-write part of `op_save_svg` (code_interpreter.rs
lines 148-202): rasterise (external), then save to the image store — with
no counter check at all. -/
def op_save_svg (s : JsRunState) (renderedPng : Option (List Nat)) :
    Except ImgError Unit × JsRunState :=
  match renderedPng with
  | none => (.error .invalidSVG, s)
  | some png => (.ok (), { s with imageWrites := s.imageWrites ++ [png] })

inductive JsOp where
  | saveBlob (schemaStr : List Char) (guessOk : Bool) (img : List Nat)
  | saveSvg (renderedPng : Option (List Nat))
deriving DecidableEq, Repr

def runJsOp (s : JsRunState) : JsOp → Except ImgError Unit × JsRunState
  | .saveBlob str ok img => op_save_blob s str ok img
  | .saveSvg png => op_save_svg s png

/-- Run a sequence of native-op calls in one sandbox run, recording per-op
success. -/
def runJsOps (s : JsRunState) : List JsOp → JsRunState × List Bool
  | [] => (s, [])
  | op :: rest =>
    let r := runJsOp s op
    let t := runJsOps r.2 rest
    (t.1, (match r.1 with | .ok _ => true | .error _ => false) :: t.2)

def totalBlobWrites (s : JsRunState) : Nat := s.imageWrites.length + s.assetWrites.length

/-! ## Observables used in the theorem statements -/

def isContentDeltaB : ChatEvent → Bool
  | .contentDelta _ => true
  | _ => false

def isReasoningDeltaB : ChatEvent → Bool
  | .reasoningDelta _ => true
  | _ => false

/-- `true` iff some `ContentDelta` appears after the first
`ReasoningDelta` of the event list. -/
def contentAfterReasoning (evs : List ChatEvent) : Bool :=
  (evs.dropWhile (fun e => !isReasoningDeltaB e)).any isContentDeltaB

def containsSub (t p : List Char) : Bool := (findSub t p).isSome

/-- Proof device: the calls already emitted plus the calls the machine
will still extract when the rest of the turn's text is `rest`. -/
def residCalls (s : PState) (rest : List Char) : List (List Char × List Char) :=
  toolCallsOf s.events ++ refCalls (modeOf s) (s.buf ++ rest)

/-! # Theorems -/

/-! ## Basic facts about `isPrefixOf` and `findSub`

`findSub` is characterised through the prefix order: `findSub t p = some i`
holds iff `p <+: t.drop i` and no earlier position matches. -/

theorem pref_get {p l : List Char} (h : p <+: l) {i : Nat} (hi : i < p.length) :
    l[i]? = p[i]? := by
  obtain ⟨r, rfl⟩ := h
  exact List.getElem?_append_left hi

theorem fs_occ : ∀ {t p : List Char} {i : Nat}, findSub t p = some i → p <+: t.drop i := by
  intro t
  induction t with
  | nil =>
    intro p i h
    simp only [findSub] at h
    split at h
    · rename_i hp
      simp at hp h
      simp [← h, hp]
    · simp at h
  | cons c rest ih =>
    intro p i h
    simp only [findSub] at h
    split at h
    · rename_i hp
      simp at hp h
      simp [← h, hp]
    · simp only [Option.map_eq_some'] at h
      obtain ⟨j, hj, rfl⟩ := h
      simpa using ih hj

theorem fs_min : ∀ {t p : List Char} {i : Nat}, findSub t p = some i →
    ∀ j, j < i → ¬ p <+: t.drop j := by
  intro t
  induction t with
  | nil =>
    intro p i h j hj
    simp only [findSub] at h
    split at h
    · simp at h; omega
    · simp at h
  | cons c rest ih =>
    intro p i h j hj
    simp only [findSub] at h
    split at h
    · simp at h; omega
    · rename_i hp
      simp at hp
      simp only [Option.map_eq_some'] at h
      obtain ⟨k, hk, rfl⟩ := h
      cases j with
      | zero => simpa using hp
      | succ j' => simpa using ih hk j' (by omega)

theorem fs_none : ∀ {t p : List Char}, findSub t p = none →
    ∀ j, ¬ p <+: t.drop j := by
  intro t
  induction t with
  | nil =>
    intro p h j
    simp only [findSub] at h
    split at h
    · simp at h
    · rename_i hp
      simp at hp
      simpa using hp
  | cons c rest ih =>
    intro p h j
    simp only [findSub] at h
    split at h
    · simp at h
    · rename_i hp
      simp at hp
      simp only [Option.map_eq_none'] at h
      cases j with
      | zero => simpa using hp
      | succ j' => simpa using ih h j'

theorem fs_build : ∀ {t p : List Char} {i : Nat}, p <+: t.drop i →
    (∀ j, j < i → ¬ p <+: t.drop j) → findSub t p = some i := by
  intro t
  induction t with
  | nil =>
    intro p i hocc hmin
    simp only [List.drop_nil] at hocc
    cases i with
    | zero =>
      have hp : p = [] := List.prefix_nil.mp hocc
      simp [findSub, hp]
    | succ i' =>
      exact absurd (by simpa using hocc) (by simpa using hmin 0 (by omega))
  | cons c rest ih =>
    intro p i hocc hmin
    cases i with
    | zero =>
      simp only [List.drop_zero] at hocc
      have : p.isPrefixOf (c :: rest) = true := by simpa using hocc
      simp [findSub, this]
    | succ i' =>
      have h0 : ¬ p <+: (c :: rest) := by simpa using hmin 0 (by omega)
      have h0' : p.isPrefixOf (c :: rest) = false := by
        cases hx : p.isPrefixOf (c :: rest)
        · rfl
        · exact absurd (by simpa using hx) h0
      simp only [findSub, h0', Bool.false_eq_true, if_false]
      have : findSub rest p = some i' := by
        apply ih
        · simpa using hocc
        · intro j hj
          simpa using hmin (j + 1) (by omega)
      simp [this]

theorem fs_ne_nil {t p : List Char} {i : Nat} (h : findSub t p = some i)
    (hp : p ≠ []) : t ≠ [] := by
  intro he
  subst he
  have := fs_occ h
  simp only [List.drop_nil] at this
  exact hp (List.prefix_nil.mp this)

theorem fs_le {t p : List Char} {i : Nat} (h : findSub t p = some i)
    (hp : p ≠ []) : i + p.length ≤ t.length := by
  have hocc := fs_occ h
  have hlen := hocc.length_le
  have hd : (t.drop i).length = t.length - i := List.length_drop i t
  rcases Nat.le_total i t.length with hle | hle
  · omega
  · exfalso
    have hnil : t.drop i = [] := List.drop_eq_nil_of_le hle
    rw [hnil] at hocc
    exact hp (List.prefix_nil.mp hocc)

theorem fs_app_some {t p : List Char} {i : Nat} (r : List Char) (h : findSub t p = some i)
    (hp : p ≠ []) : findSub (t ++ r) p = some i := by
  have hle := fs_le h hp
  apply fs_build
  · rw [List.drop_append_of_le_length (by omega)]
    exact (fs_occ h).trans (List.prefix_append _ r)
  · intro j hj hcon
    rw [List.drop_append_of_le_length (by omega)] at hcon
    have hsplit : p <+: t.drop j := by
      apply List.prefix_of_prefix_length_le hcon (List.prefix_append (t.drop j) r)
      have : (t.drop j).length = t.length - j := List.length_drop j t
      omega
    exact fs_min h j hj hsplit

/-! ## Concrete facts about the four sentinels -/

theorem sw_ne_nil : ∀ tag ∈ FN_STOP_WORDS, tag ≠ [] := by decide

theorem sw_len_pos : ∀ tag ∈ FN_STOP_WORDS, 0 < tag.length := by decide

theorem sw_head : ∀ tag ∈ FN_STOP_WORDS, tag[0]? = some flower := by decide

theorem sw_flower_pos : ∀ tag ∈ FN_STOP_WORDS, ∀ m, m < tag.length →
    tag[m]? = some flower → m = 0 ∨ m = tag.length - 1 := by decide

theorem sw_no_pref : ∀ t1 ∈ FN_STOP_WORDS, ∀ t2 ∈ FN_STOP_WORDS, t1 ≠ t2 → ¬ t1 <+: t2 := by
  decide

theorem fnName_mem : FN_NAME ∈ FN_STOP_WORDS := by decide

theorem fnArgs_mem : FN_ARGS ∈ FN_STOP_WORDS := by decide

theorem fnName_partial_bytes : ∀ m, m ≤ 9 → utf8Len (FN_NAME.take m) ≤ 11 := by decide

theorem fnMaxLen_eq : FN_MAX_LEN = 34 := by decide

/-! ## Byte-length and split-point facts -/

theorem u_app (a b : List Char) : utf8Len (a ++ b) = utf8Len a + utf8Len b := by
  simp [utf8Len]

theorem u_take_drop (l : List Char) (k : Nat) :
    utf8Len (l.take k) + utf8Len (l.drop k) = utf8Len l := by
  rw [← u_app, List.take_append_drop]

theorem u_take_le (l : List Char) (k : Nat) : utf8Len (l.take k) ≤ utf8Len l := by
  have := u_take_drop l k
  omega

theorem u_take_mono (l : List Char) {j k : Nat} (h : j ≤ k) :
    utf8Len (l.take j) ≤ utf8Len (l.take k) := by
  have h1 : l.take j = (l.take k).take j := by
    rw [List.take_take, Nat.min_eq_left h]
  rw [h1]
  exact u_take_le (l.take k) j

theorem sb_le (l : List Char) (t : Nat) : splitBound l t ≤ l.length := by
  induction l generalizing t with
  | nil => simp [splitBound]
  | cons c cs ih =>
    simp only [splitBound]
    split
    · have := ih (t - c.utf8Size)
      simp only [List.length_cons]
      omega
    · simp

theorem sb_bytes (l : List Char) (t : Nat) : utf8Len (l.take (splitBound l t)) ≤ t := by
  induction l generalizing t with
  | nil => simp [splitBound, utf8Len]
  | cons c cs ih =>
    simp only [splitBound]
    split
    · rename_i hc
      have := ih (t - c.utf8Size)
      simp only [List.take_succ_cons, utf8Len, List.map_cons, List.sum_cons]
      simp only [utf8Len] at this
      omega
    · simp [utf8Len]

theorem sb_pos {l : List Char} {t : Nat} (hne : l ≠ []) (h4 : 4 ≤ t) :
    0 < splitBound l t := by
  cases l with
  | nil => exact absurd rfl hne
  | cons c cs =>
    have hc : c.utf8Size ≤ 4 := Char.utf8Size_le_four c
    simp only [splitBound]
    split
    · omega
    · omega

/-! ## `minStop` characterisation -/

theorem pickFold_stable {cands : List (Nat × List Char)} {b : Nat × List Char}
    (h : ∀ y ∈ cands, ¬ y.1 < b.1) :
    cands.foldl
      (fun acc c =>
        match acc with
        | none => some c
        | some b => if c.1 < b.1 then some c else some b) (some b) = some b := by
  induction cands with
  | nil => rfl
  | cons y rest ih =>
    have hy : ¬ y.1 < b.1 := h y (by simp)
    simp only [List.foldl_cons]
    have : (if y.1 < b.1 then some y else some b) = some b := by simp [hy]
    simp only [this]
    exact ih (fun z hz => h z (by simp [hz]))

theorem pickFold_replace : ∀ (cands : List (Nat × List Char)) (x b : Nat × List Char),
    x ∈ cands → (∀ y ∈ cands, y = x ∨ x.1 < y.1) → x.1 < b.1 →
    cands.foldl
      (fun acc c =>
        match acc with
        | none => some c
        | some b => if c.1 < b.1 then some c else some b) (some b) = some x := by
  intro cands
  induction cands with
  | nil => intro x b hmem _ _; simp at hmem
  | cons y rest ih =>
    intro x b hmem hall hlt
    simp only [List.foldl_cons]
    by_cases hyx : y = x
    · subst hyx
      have : (if y.1 < b.1 then some y else some b) = some y := by simp [hlt]
      rw [this]
      apply pickFold_stable
      intro z hz
      rcases hall z (by simp [hz]) with rfl | h
      · omega
      · omega
    · have hxrest : x ∈ rest := by
        rcases List.mem_cons.mp hmem with h | h
        · exact absurd h.symm hyx
        · exact h
      have hxy : x.1 < y.1 := by
        rcases hall y (by simp) with h | h
        · exact absurd h hyx
        · exact h
      have hall' : ∀ z ∈ rest, z = x ∨ x.1 < z.1 := fun z hz => hall z (by simp [hz])
      by_cases hc : y.1 < b.1
      · simp only [hc, if_true]
        exact ih x y hxrest hall' hxy
      · simp only [hc, if_false]
        exact ih x b hxrest hall' hlt

theorem pickFold_start (cands : List (Nat × List Char)) (x : Nat × List Char)
    (hmem : x ∈ cands) (hall : ∀ y ∈ cands, y = x ∨ x.1 < y.1) :
    cands.foldl
      (fun acc c =>
        match acc with
        | none => some c
        | some b => if c.1 < b.1 then some c else some b) none = some x := by
  cases cands with
  | nil => simp at hmem
  | cons y rest =>
    simp only [List.foldl_cons]
    by_cases hyx : y = x
    · subst hyx
      apply pickFold_stable
      intro z hz
      rcases hall z (by simp [hz]) with rfl | h
      · omega
      · omega
    · have hxrest : x ∈ rest := by
        rcases List.mem_cons.mp hmem with h | h
        · exact absurd h.symm hyx
        · exact h
      have hxy : x.1 < y.1 := by
        rcases hall y (by simp) with h | h
        · exact absurd h hyx
        · exact h
      exact pickFold_replace rest x y hxrest (fun z hz => hall z (by simp [hz])) hxy

theorem pickFold_elim_aux : ∀ (cands : List (Nat × List Char)) (b x : Nat × List Char),
    cands.foldl
      (fun acc c =>
        match acc with
        | none => some c
        | some b => if c.1 < b.1 then some c else some b) (some b) = some x →
    (x = b ∨ x ∈ cands) ∧ x.1 ≤ b.1 ∧ ∀ y ∈ cands, x.1 ≤ y.1 := by
  intro cands
  induction cands with
  | nil =>
    intro b x h
    simp only [List.foldl_nil, Option.some_inj] at h
    subst h
    exact ⟨Or.inl rfl, le_rfl, by simp⟩
  | cons y rest ih =>
    intro b x h
    simp only [List.foldl_cons] at h
    by_cases hc : y.1 < b.1
    · rw [if_pos hc] at h
      obtain ⟨hmem, hle, hall⟩ := ih y x h
      refine ⟨?_, by omega, ?_⟩
      · rcases hmem with rfl | hm
        · exact Or.inr (by simp)
        · exact Or.inr (by simp [hm])
      · intro z hz
        rcases List.mem_cons.mp hz with rfl | hz'
        · omega
        · exact hall z hz'
    · rw [if_neg hc] at h
      obtain ⟨hmem, hle, hall⟩ := ih b x h
      refine ⟨?_, hle, ?_⟩
      · rcases hmem with rfl | hm
        · exact Or.inl rfl
        · exact Or.inr (by simp [hm])
      · intro z hz
        rcases List.mem_cons.mp hz with rfl | hz'
        · omega
        · exact hall z hz'

theorem pickFold_elim (cands : List (Nat × List Char)) (x : Nat × List Char)
    (h : cands.foldl
      (fun acc c =>
        match acc with
        | none => some c
        | some b => if c.1 < b.1 then some c else some b) none = some x) :
    x ∈ cands ∧ ∀ y ∈ cands, x.1 ≤ y.1 := by
  cases cands with
  | nil => simp at h
  | cons y rest =>
    simp only [List.foldl_cons] at h
    obtain ⟨hmem, hle, hall⟩ := pickFold_elim_aux rest y x h
    refine ⟨?_, ?_⟩
    · rcases hmem with rfl | hm
      · simp
      · simp [hm]
    · intro z hz
      rcases List.mem_cons.mp hz with rfl | hz'
      · exact hle
      · exact hall z hz'

theorem pickFold_ne_none : ∀ (cands : List (Nat × List Char)) (b : Nat × List Char),
    cands.foldl
      (fun acc c =>
        match acc with
        | none => some c
        | some b => if c.1 < b.1 then some c else some b) (some b) ≠ none := by
  intro cands
  induction cands with
  | nil => intro b; simp
  | cons y rest ih =>
    intro b
    simp only [List.foldl_cons]
    by_cases hc : y.1 < b.1
    · rw [if_pos hc]; exact ih y
    · rw [if_neg hc]; exact ih b

theorem minStop_cands_mem (t : List Char) (y : Nat × List Char) :
    (y ∈ FN_STOP_WORDS.filterMap (fun tag => (findSub t tag).map (fun i => (i, tag)))) ↔
      y.2 ∈ FN_STOP_WORDS ∧ findSub t y.2 = some y.1 := by
  simp only [List.mem_filterMap, Option.map_eq_some']
  constructor
  · rintro ⟨tag, htag, i, hfs, rfl⟩
    exact ⟨htag, hfs⟩
  · rintro ⟨htag, hfs⟩
    exact ⟨y.2, htag, y.1, hfs, rfl⟩

theorem minStop_none_elim {t : List Char} (h : minStop t = none) :
    ∀ tag ∈ FN_STOP_WORDS, findSub t tag = none := by
  intro tag htag
  by_contra hcon
  obtain ⟨i, hi⟩ := Option.ne_none_iff_exists'.mp hcon
  unfold minStop at h
  rcases hc : FN_STOP_WORDS.filterMap (fun tag => (findSub t tag).map (fun i => (i, tag))) with
    _ | ⟨y, rest⟩
  · have : (i, tag) ∈ FN_STOP_WORDS.filterMap
        (fun tag => (findSub t tag).map (fun i => (i, tag))) :=
      (minStop_cands_mem t (i, tag)).mpr ⟨htag, hi⟩
    rw [hc] at this
    simp at this
  · rw [hc] at h
    simp only [List.foldl_cons] at h
    exact pickFold_ne_none rest y h

theorem minStop_some_elim {t : List Char} {j : Nat} {tag : List Char}
    (h : minStop t = some (j, tag)) :
    tag ∈ FN_STOP_WORDS ∧ findSub t tag = some j ∧
      ∀ tg ∈ FN_STOP_WORDS, ∀ i', findSub t tg = some i' → j ≤ i' := by
  unfold minStop at h
  obtain ⟨hmem, hall⟩ := pickFold_elim _ _ h
  rw [minStop_cands_mem] at hmem
  refine ⟨hmem.1, hmem.2, ?_⟩
  intro tg htg i' hi'
  have : ((j, tag) : Nat × List Char).1 ≤ ((i', tg) : Nat × List Char).1 :=
    hall (i', tg) ((minStop_cands_mem t (i', tg)).mpr ⟨htg, hi'⟩)
  simpa using this

theorem minStop_intro {t : List Char} {j : Nat} {tag : List Char}
    (htag : tag ∈ FN_STOP_WORDS) (hj : findSub t tag = some j)
    (hmin : ∀ tg ∈ FN_STOP_WORDS, tg ≠ tag → ∀ i', findSub t tg = some i' → j < i') :
    minStop t = some (j, tag) := by
  unfold minStop
  apply pickFold_start
  · exact (minStop_cands_mem t (j, tag)).mpr ⟨htag, hj⟩
  · intro y hy
    obtain ⟨hySW, hyfs⟩ := (minStop_cands_mem t y).mp hy
    by_cases hcase : y.2 = tag
    · left
      have : y.1 = j := by
        rw [hcase] at hyfs
        rw [hyfs] at hj
        exact Option.some_inj.mp hj
      cases y with
      | mk a b =>
        simp only at hcase this
        simp [this, hcase]
    · right
      exact hmin y.2 hySW hcase y.1 hyfs

/-! ## Unfolding the reference parser -/

theorem refA_none {t : List Char} (h : findSub t FN_NAME = none) :
    refCalls .await t = [] := by
  unfold refCalls
  simp [h]

theorem refA_some {t : List Char} {i : Nat} (h : findSub t FN_NAME = some i) :
    refCalls .await t = refCalls .name (t.drop (i + FN_NAME.length)) := by
  have hle := fs_le h (by decide)
  conv_lhs => rw [refCalls]
  simp only [h]
  rw [dif_pos hle]

theorem refN_none {t : List Char} (h : findSub t FN_ARGS = none) :
    refCalls .name t = [] := by
  unfold refCalls
  simp [h]

theorem refN_some {t : List Char} {i : Nat} (h : findSub t FN_ARGS = some i) :
    refCalls .name t = refCalls (.args (stripTok (t.take i))) (t.drop (i + FN_ARGS.length)) := by
  have hle := fs_le h (by decide)
  conv_lhs => rw [refCalls]
  simp only [h]
  rw [dif_pos hle]

theorem refR_none {t : List Char} (n : List Char) (h : minStop t = none) :
    refCalls (.args n) t = [(n, stripTok t)] := by
  unfold refCalls
  simp [h]

theorem refR_some {t : List Char} {j : Nat} {tag : List Char} (n : List Char)
    (h : minStop t = some (j, tag)) :
    refCalls (.args n) t = (n, stripTok (t.take j)) ::
      refCalls (if tag = FN_NAME then .name else .await) (t.drop (j + tag.length)) := by
  obtain ⟨htag, hfs, _⟩ := minStop_some_elim h
  have hle := fs_le hfs (sw_ne_nil _ htag)
  have hpos := sw_len_pos _ htag
  conv_lhs => rw [refCalls]
  simp only [h]
  rw [dif_pos ⟨hle, hpos⟩]

/-! ## Safety of the lookahead flush -/

theorem flush_occ_bound {buf r : List Char} (hnone : findSub buf FN_NAME = none)
    (hbig : FN_MAX_LEN < utf8Len buf) :
    ∀ j, FN_NAME <+: (buf ++ r).drop j →
      splitBound buf (utf8Len buf - FN_MAX_LEN / 2) ≤ j := by
  intro j hocc
  by_contra hcon
  push_neg at hcon
  set k := splitBound buf (utf8Len buf - FN_MAX_LEN / 2) with hk
  have hkbuf : k ≤ buf.length := sb_le buf _
  have hjbuf : j < buf.length := by omega
  by_cases hfit : j + FN_NAME.length ≤ buf.length
  · -- the occurrence would lie inside the buffer
    rw [List.drop_append_of_le_length (by omega)] at hocc
    have hsplit : FN_NAME <+: buf.drop j := by
      apply List.prefix_of_prefix_length_le hocc (List.prefix_append (buf.drop j) r)
      have : (buf.drop j).length = buf.length - j := List.length_drop j buf
      have : FN_NAME.length = 10 := by decide
      omega
    exact fs_none hnone j hsplit
  · -- the occurrence straddles the end of the buffer
    push_neg at hfit
    rw [List.drop_append_of_le_length (by omega)] at hocc
    have hlen : (buf.drop j).length = buf.length - j := List.length_drop j buf
    have hsmall : (buf.drop j).length ≤ 9 := by
      have : FN_NAME.length = 10 := by decide
      omega
    have hpart : buf.drop j <+: FN_NAME := by
      apply List.prefix_of_prefix_length_le (List.prefix_append (buf.drop j) r) hocc
      have : FN_NAME.length = 10 := by decide
      omega
    have heq : buf.drop j = FN_NAME.take (buf.drop j).length :=
      List.prefix_iff_eq_take.mp hpart
    have hbytes : utf8Len (buf.drop j) ≤ 11 := by
      rw [heq]
      exact fnName_partial_bytes _ (by omega)
    have htj : utf8Len buf - 11 ≤ utf8Len (buf.take j) := by
      have := u_take_drop buf j
      omega
    have htk : utf8Len (buf.take k) ≤ utf8Len buf - FN_MAX_LEN / 2 := sb_bytes buf _
    have hmono : utf8Len (buf.take j) ≤ utf8Len (buf.take k) := u_take_mono buf (by omega)
    rw [fnMaxLen_eq] at hbig htk
    omega

theorem refA_drop {x : List Char} {k : Nat} (_hk : k ≤ x.length)
    (hocc : ∀ j, FN_NAME <+: x.drop j → k ≤ j) :
    refCalls .await x = refCalls .await (x.drop k) := by
  cases hfs : findSub x FN_NAME with
  | none =>
    rw [refA_none hfs, refA_none ?_]
    cases hfs' : findSub (x.drop k) FN_NAME with
    | none => rfl
    | some j' =>
      exfalso
      have hoc := fs_occ hfs'
      rw [List.drop_drop] at hoc
      exact fs_none hfs _ hoc
  | some j =>
    have hkj : k ≤ j := hocc j (fs_occ hfs)
    rw [refA_some hfs]
    have hfs' : findSub (x.drop k) FN_NAME = some (j - k) := by
      apply fs_build
      · rw [List.drop_drop]
        have he : k + (j - k) = j := by omega
        rw [he]
        exact fs_occ hfs
      · intro j' hj' hconp
        rw [List.drop_drop] at hconp
        exact fs_min hfs (k + j') (by omega) hconp
    rw [refA_some hfs']
    rw [List.drop_drop]
    have he : k + (j - k + FN_NAME.length) = j + FN_NAME.length := by omega
    rw [he]

/-! ## Extending the buffer from the right preserves stop-word search results -/

theorem minStop_app {buf r : List Char} {j : Nat} {tag : List Char}
    (h : minStop buf = some (j, tag)) : minStop (buf ++ r) = some (j, tag) := by
  obtain ⟨htag, hfs, hmin⟩ := minStop_some_elim h
  have htagne := sw_ne_nil _ htag
  have hjle := fs_le hfs htagne
  have htagpos := sw_len_pos _ htag
  apply minStop_intro htag (fs_app_some r hfs htagne)
  intro tg htg hne i' hfs'
  have htgne := sw_ne_nil _ htg
  have htgpos := sw_len_pos _ htg
  cases horig : findSub buf tg with
  | some i0 =>
    have hx : findSub (buf ++ r) tg = some i0 := fs_app_some r horig htgne
    rw [hfs'] at hx
    have hi0 : i' = i0 := Option.some_inj.mp hx
    subst hi0
    have hle' : j ≤ i' := hmin tg htg i' horig
    rcases Nat.lt_or_ge j i' with hlt | hge
    · exact hlt
    · exfalso
      have hji : j = i' := by omega
      subst hji
      -- two distinct stop words matching at the same position: impossible
      have hocc1 : tag <+: buf.drop j := fs_occ hfs
      have hocc2 : tg <+: buf.drop j := fs_occ horig
      rcases Nat.le_total tag.length tg.length with hlen | hlen
      · exact sw_no_pref tag htag tg htg (fun hx => hne hx.symm)
          (List.prefix_of_prefix_length_le hocc1 hocc2 hlen)
      · exact sw_no_pref tg htg tag htag hne
          (List.prefix_of_prefix_length_le hocc2 hocc1 hlen)
  | none =>
    -- the new occurrence straddles the buffer end
    have hocc' : tg <+: (buf ++ r).drop i' := fs_occ hfs'
    have hnofit : buf.length < i' + tg.length := by
      by_contra hfit
      push_neg at hfit
      apply fs_none horig i'
      rw [List.drop_append_of_le_length (by omega)] at hocc'
      apply List.prefix_of_prefix_length_le hocc' (List.prefix_append (buf.drop i') r)
      have hdl : (buf.drop i').length = buf.length - i' := List.length_drop i' buf
      omega
    rcases Nat.lt_trichotomy j i' with hlt | heq | hgt
    · exact hlt
    · exfalso
      subst heq
      have hocc1 : tag <+: (buf ++ r).drop j := by
        rw [List.drop_append_of_le_length (by omega)]
        exact (fs_occ hfs).trans (List.prefix_append _ r)
      rcases Nat.le_total tag.length tg.length with hlen | hlen
      · exact sw_no_pref tag htag tg htg (fun hx => hne hx.symm)
          (List.prefix_of_prefix_length_le hocc1 hocc' hlen)
      · exact sw_no_pref tg htg tag htag hne
          (List.prefix_of_prefix_length_le hocc' hocc1 hlen)
    · exfalso
      -- i' < j: the straddling occurrence would cover position j, where a '✿'
      -- sits; '✿' only occurs at the ends of a stop word, forcing the
      -- occurrence to fit inside the buffer after all.
      have hjlt : j < i' + tg.length := by omega
      have hchar : (buf ++ r)[j]? = tg[j - i']? := by
        have h1 : ((buf ++ r).drop i')[j - i']? = tg[j - i']? :=
          pref_get hocc' (by omega)
        rw [List.getElem?_drop] at h1
        have : i' + (j - i') = j := by omega
        rw [this] at h1
        exact h1
      have hflower : buf[j]? = some flower := by
        have h1 : (buf.drop j)[0]? = tag[0]? := pref_get (fs_occ hfs) (by omega)
        rw [List.getElem?_drop] at h1
        simp only [Nat.add_zero] at h1
        rw [h1]
        exact sw_head tag htag
      have hbufj : (buf ++ r)[j]? = buf[j]? := List.getElem?_append_left (by omega)
      have : tg[j - i']? = some flower := by
        rw [← hchar, hbufj, hflower]
      rcases sw_flower_pos tg htg (j - i') (by omega) this with hz | hend
      · omega
      · omega

/-! ## The central invariant: one parse-loop step preserves the residual calls -/

@[simp]
theorem toolCallsOf_nil : toolCallsOf [] = [] := rfl

@[simp]
theorem toolCallsOf_append (a b : List ChatEvent) :
    toolCallsOf (a ++ b) = toolCallsOf a ++ toolCallsOf b := by
  simp [toolCallsOf]

@[simp]
theorem toolCallsOf_content (x : List Char) (evs : List ChatEvent) :
    toolCallsOf (ChatEvent.contentDelta x :: evs) = toolCallsOf evs := rfl

@[simp]
theorem toolCallsOf_reasoning (x : List Char) (evs : List ChatEvent) :
    toolCallsOf (ChatEvent.reasoningDelta x :: evs) = toolCallsOf evs := rfl

@[simp]
theorem toolCallsOf_toolDelta (x : List Char) (evs : List ChatEvent) :
    toolCallsOf (ChatEvent.toolDelta x :: evs) = toolCallsOf evs := rfl

@[simp]
theorem toolCallsOf_toolCall (n a : List Char) (evs : List ChatEvent) :
    toolCallsOf (ChatEvent.toolCall n a :: evs) = (n, a) :: toolCallsOf evs := rfl

theorem stepParse_resid (chunk rest : List Char) (s : PState) (hs : s.state ≠ .content) :
    residCalls (stepParse chunk s).1 rest = residCalls s rest ∧
      (stepParse chunk s).1.state ≠ .content := by
  unfold residCalls
  cases hstate : s.state with
  | content => exact absurd hstate hs
  | awaitingDecision =>
    simp only [stepParse, hstate]
    cases hfs : findSub s.buf FN_NAME with
    | some idx =>
      have h10 : FN_NAME ≠ [] := by decide
      have hle := fs_le hfs h10
      have hfs2 : findSub (s.buf ++ rest) FN_NAME = some idx := fs_app_some rest hfs h10
      have hdrop : (s.buf ++ rest).drop (idx + FN_NAME.length) =
          s.buf.drop (idx + FN_NAME.length) ++ rest := List.drop_append_of_le_length hle
      have href : refCalls .await (s.buf ++ rest) =
          refCalls .name (s.buf.drop (idx + FN_NAME.length) ++ rest) := by
        rw [refA_some hfs2, hdrop]
      by_cases hrp : s.buf.take idx = ([] : List Char)
      · simp [hrp, modeOf, hstate, href]
      · by_cases hre : s.reasoning = ([] : List Char)
        · simp [hrp, hre, modeOf, hstate, href]
        · simp [hrp, hre, modeOf, hstate, href]
    | none =>
      by_cases hbig : FN_MAX_LEN < utf8Len s.buf
      · by_cases hpos : 0 < splitBound s.buf (utf8Len s.buf - FN_MAX_LEN / 2)
        · have hkle : splitBound s.buf (utf8Len s.buf - FN_MAX_LEN / 2) ≤ s.buf.length :=
            sb_le s.buf _
          have hdrop : s.buf.drop (splitBound s.buf (utf8Len s.buf - FN_MAX_LEN / 2)) ++ rest =
              (s.buf ++ rest).drop (splitBound s.buf (utf8Len s.buf - FN_MAX_LEN / 2)) :=
            (List.drop_append_of_le_length hkle).symm
          have href : refCalls .await (s.buf ++ rest) =
              refCalls .await
                (s.buf.drop (splitBound s.buf (utf8Len s.buf - FN_MAX_LEN / 2)) ++ rest) := by
            rw [hdrop]
            apply refA_drop
            · rw [List.length_append]; omega
            · exact flush_occ_bound hfs hbig
          by_cases hre : s.reasoning = ([] : List Char)
          · simp [hbig, hpos, hre, modeOf, hstate, href]
          · simp [hbig, hpos, hre, modeOf, hstate, href]
        · simp [hbig, hpos, modeOf, hstate]
      · simp [hbig, modeOf, hstate]
  | toolCallName =>
    simp only [stepParse, hstate]
    cases hfs : findSub s.buf FN_ARGS with
    | some idx =>
      have h6 : FN_ARGS ≠ [] := by decide
      have hle := fs_le hfs h6
      have hfs2 : findSub (s.buf ++ rest) FN_ARGS = some idx := fs_app_some rest hfs h6
      have hdrop : (s.buf ++ rest).drop (idx + FN_ARGS.length) =
          s.buf.drop (idx + FN_ARGS.length) ++ rest := List.drop_append_of_le_length hle
      have htake : (s.buf ++ rest).take idx = s.buf.take idx :=
        List.take_append_of_le_length (by omega)
      have href : refCalls .name (s.buf ++ rest) =
          refCalls (.args (stripTok (s.buf.take idx)))
            (s.buf.drop (idx + FN_ARGS.length) ++ rest) := by
        rw [refN_some hfs2, htake, hdrop]
      simp [modeOf, hstate, href]
    | none => simp [modeOf, hstate]
  | toolCallArgs =>
    simp only [stepParse, hstate]
    cases hms : minStop s.buf with
    | some p =>
      obtain ⟨idx, tag⟩ := p
      obtain ⟨htag, hfs, _⟩ := minStop_some_elim hms
      have htagne := sw_ne_nil _ htag
      have hle := fs_le hfs htagne
      have hms2 : minStop (s.buf ++ rest) = some (idx, tag) := minStop_app hms
      have hdrop : (s.buf ++ rest).drop (idx + tag.length) =
          s.buf.drop (idx + tag.length) ++ rest := List.drop_append_of_le_length hle
      have htake : (s.buf ++ rest).take idx = s.buf.take idx :=
        List.take_append_of_le_length (by omega)
      have href : refCalls (.args s.curName) (s.buf ++ rest) =
          (s.curName, stripTok (s.buf.take idx)) ::
            refCalls (if tag = FN_NAME then .name else .await)
              (s.buf.drop (idx + tag.length) ++ rest) := by
        rw [refR_some s.curName hms2, htake, hdrop]
      by_cases htg : tag = FN_NAME
      · subst htg
        have hne2 : FN_NAME ≠ FN_EXIT := by decide
        simp [modeOf, hstate, href, hne2]
      · by_cases hte : tag = FN_EXIT
        · subst hte
          simp [modeOf, hstate, href, htg]
        · simp [modeOf, hstate, href, htg, hte]
    | none => simp [modeOf, hstate]

theorem stepParse_dec (chunk : List Char) (s : PState)
    (h : (stepParse chunk s).2 = true) :
    (stepParse chunk s).1.buf.length < s.buf.length := by
  cases hstate : s.state with
  | content =>
    simp only [stepParse, hstate] at h
    split at h <;> simp_all
  | awaitingDecision =>
    simp only [stepParse, hstate] at h ⊢
    cases hfs : findSub s.buf FN_NAME with
    | some idx =>
      have hle := fs_le hfs (by decide)
      have h10 : FN_NAME.length = 10 := by decide
      simp only [hfs]
      simp only [List.length_drop]
      omega
    | none =>
      simp only [hfs] at h ⊢
      by_cases hbig : FN_MAX_LEN < utf8Len s.buf
      · by_cases hpos : 0 < splitBound s.buf (utf8Len s.buf - FN_MAX_LEN / 2)
        · have hkle := sb_le s.buf (utf8Len s.buf - FN_MAX_LEN / 2)
          simp only [hbig, if_true, hpos]
          by_cases hre : s.reasoning = ([] : List Char)
          · simp [hre]; omega
          · simp [hre]; omega
        · simp [hbig, hpos] at h
      · simp [hbig] at h
  | toolCallName =>
    simp only [stepParse, hstate] at h ⊢
    cases hfs : findSub s.buf FN_ARGS with
    | some idx =>
      have hle := fs_le hfs (by decide)
      have h6 : FN_ARGS.length = 6 := by decide
      simp only [hfs]
      simp only [List.length_drop]
      omega
    | none => simp [hfs] at h
  | toolCallArgs =>
    simp only [stepParse, hstate] at h ⊢
    cases hms : minStop s.buf with
    | some p =>
      obtain ⟨idx, tag⟩ := p
      obtain ⟨htag, hfs, _⟩ := minStop_some_elim hms
      have hle := fs_le hfs (sw_ne_nil _ htag)
      have hpos := sw_len_pos _ htag
      simp only [hms]
      by_cases hte : tag = FN_EXIT
      · simp [hte] at hle hpos ⊢; omega
      · simp [hte]; omega
    | none => simp [hms] at h

theorem stepParse_break_inv (chunk : List Char) (s : PState)
    (h : (stepParse chunk s).2 = false) :
    ((stepParse chunk s).1.state = .awaitingDecision →
        findSub (stepParse chunk s).1.buf FN_NAME = none) ∧
      ((stepParse chunk s).1.state = .toolCallName →
        findSub (stepParse chunk s).1.buf FN_ARGS = none) ∧
      ((stepParse chunk s).1.state = .toolCallArgs →
        minStop (stepParse chunk s).1.buf = none) := by
  cases hstate : s.state with
  | content =>
    simp only [stepParse, hstate] at h ⊢
    by_cases hb : s.buf ≠ ([] : List Char)
    · simp [hb, hstate]
    · simp [hb, hstate]
  | awaitingDecision =>
    simp only [stepParse, hstate] at h ⊢
    cases hfs : findSub s.buf FN_NAME with
    | some idx =>
      simp only [hfs] at h
      simp at h
    | none =>
      simp only [hfs] at h ⊢
      by_cases hbig : FN_MAX_LEN < utf8Len s.buf
      · by_cases hpos : 0 < splitBound s.buf (utf8Len s.buf - FN_MAX_LEN / 2)
        · simp [hbig, hpos] at h
        · simp [hbig, hpos, hstate, hfs]
      · simp [hbig, hstate, hfs]
  | toolCallName =>
    simp only [stepParse, hstate] at h ⊢
    cases hfs : findSub s.buf FN_ARGS with
    | some idx => simp [hfs] at h
    | none => simp [hfs, hstate]
  | toolCallArgs =>
    simp only [stepParse, hstate] at h ⊢
    cases hms : minStop s.buf with
    | some p =>
      obtain ⟨idx, tag⟩ := p
      simp only [hms] at h
      simp at h
    | none => simp [hms, hstate]

theorem loopGo_resid (chunk rest : List Char) :
    ∀ (fuel : Nat) (s : PState), s.state ≠ .content →
      residCalls (loopGo chunk fuel s) rest = residCalls s rest ∧
        (loopGo chunk fuel s).state ≠ .content := by
  intro fuel
  induction fuel with
  | zero => intro s hs; exact ⟨rfl, hs⟩
  | succ n ih =>
    intro s hs
    simp only [loopGo]
    obtain ⟨hres, hst⟩ := stepParse_resid chunk rest s hs
    cases hsp : stepParse chunk s with
    | mk s1 cont =>
      rw [hsp] at hres hst
      cases cont
      · exact ⟨hres, hst⟩
      · obtain ⟨h1, h2⟩ := ih s1 hst
        exact ⟨h1.trans hres, h2⟩

theorem loopGo_break (chunk : List Char) :
    ∀ (fuel : Nat) (s : PState), s.buf.length < fuel →
      (((loopGo chunk fuel s).state = .awaitingDecision →
          findSub (loopGo chunk fuel s).buf FN_NAME = none) ∧
        ((loopGo chunk fuel s).state = .toolCallName →
          findSub (loopGo chunk fuel s).buf FN_ARGS = none) ∧
        ((loopGo chunk fuel s).state = .toolCallArgs →
          minStop (loopGo chunk fuel s).buf = none)) := by
  intro fuel
  induction fuel with
  | zero => intro s hlen; exact absurd hlen (Nat.not_lt_zero _)
  | succ n ih =>
    intro s hlen
    simp only [loopGo]
    cases hsp : stepParse chunk s with
    | mk s1 cont =>
      cases cont
      · have := stepParse_break_inv chunk s (by rw [hsp])
        rw [hsp] at this
        exact this
      · have hdec := stepParse_dec chunk s (by rw [hsp])
        rw [hsp] at hdec
        simp only at hdec
        exact ih s1 (by omega)

theorem feedChunk_resid (s : PState) (c rest : List Char) (hs : s.state ≠ .content) :
    residCalls (feedChunk s c) rest = residCalls s (c ++ rest) ∧
      (feedChunk s c).state ≠ .content := by
  unfold feedChunk
  obtain ⟨h1, h2⟩ := loopGo_resid c rest ((s.buf ++ c).length + 1) { s with buf := s.buf ++ c }
    (by simpa using hs)
  refine ⟨?_, h2⟩
  rw [h1]
  unfold residCalls
  simp [modeOf, List.append_assoc]

theorem feedChunk_break (s : PState) (c : List Char) :
    (((feedChunk s c).state = .awaitingDecision →
        findSub (feedChunk s c).buf FN_NAME = none) ∧
      ((feedChunk s c).state = .toolCallName →
        findSub (feedChunk s c).buf FN_ARGS = none) ∧
      ((feedChunk s c).state = .toolCallArgs →
        minStop (feedChunk s c).buf = none)) := by
  unfold feedChunk
  exact loopGo_break c ((s.buf ++ c).length + 1) { s with buf := s.buf ++ c } (by simp)

theorem foldFeed_resid : ∀ (chunks : List (List Char)) (s : PState), s.state ≠ .content →
    residCalls (chunks.foldl feedChunk s) [] = residCalls s chunks.flatten ∧
      (chunks.foldl feedChunk s).state ≠ .content := by
  intro chunks
  induction chunks with
  | nil => intro s hs; exact ⟨rfl, hs⟩
  | cons c cs ih =>
    intro s hs
    simp only [List.foldl_cons, List.flatten_cons]
    obtain ⟨hf, hfst⟩ := feedChunk_resid s c cs.flatten hs
    obtain ⟨h1, h2⟩ := ih (feedChunk s c) hfst
    exact ⟨h1.trans hf, h2⟩

theorem foldFeed_break (chunks : List (List Char)) (s : PState)
    (hbase : ((s.state = .awaitingDecision → findSub s.buf FN_NAME = none) ∧
      (s.state = .toolCallName → findSub s.buf FN_ARGS = none) ∧
      (s.state = .toolCallArgs → minStop s.buf = none))) :
    (((chunks.foldl feedChunk s).state = .awaitingDecision →
        findSub (chunks.foldl feedChunk s).buf FN_NAME = none) ∧
      ((chunks.foldl feedChunk s).state = .toolCallName →
        findSub (chunks.foldl feedChunk s).buf FN_ARGS = none) ∧
      ((chunks.foldl feedChunk s).state = .toolCallArgs →
        minStop (chunks.foldl feedChunk s).buf = none)) := by
  induction chunks generalizing s with
  | nil => exact hbase
  | cons c cs ih =>
    simp only [List.foldl_cons]
    exact ih (feedChunk s c) (feedChunk_break s c)

theorem finishTurn_calls (s : PState) (hs : s.state ≠ .content)
    (hbrk : ((s.state = .awaitingDecision → findSub s.buf FN_NAME = none) ∧
      (s.state = .toolCallName → findSub s.buf FN_ARGS = none) ∧
      (s.state = .toolCallArgs → minStop s.buf = none))) :
    toolCallsOf (finishTurn s).events = residCalls s [] := by
  unfold residCalls
  cases hstate : s.state with
  | content => exact absurd hstate hs
  | awaitingDecision =>
    have hfs : findSub s.buf FN_NAME = none := hbrk.1 hstate
    have hmode : modeOf s = RefMode.await := by simp [modeOf, hstate]
    simp only [finishTurn, hstate, hmode, List.append_nil]
    rw [refA_none hfs]
    by_cases hb : s.buf = ([] : List Char)
    · simp [hb]
    · by_cases hre : s.reasoning = ([] : List Char)
      · simp [hb, hre]
      · simp [hb, hre]
  | toolCallName =>
    have hfs : findSub s.buf FN_ARGS = none := hbrk.2.1 hstate
    have hmode : modeOf s = RefMode.name := by simp [modeOf, hstate]
    simp only [finishTurn, hstate, hmode, List.append_nil]
    rw [refN_none hfs]
    by_cases hb : s.buf = ([] : List Char)
    · simp [hb]
    · by_cases hre : s.reasoning = ([] : List Char)
      · simp [hb, hre]
      · simp [hb, hre]
  | toolCallArgs =>
    have hms : minStop s.buf = none := hbrk.2.2 hstate
    have hmode : modeOf s = RefMode.args s.curName := by simp [modeOf, hstate]
    simp only [finishTurn, hstate, hmode, List.append_nil]
    rw [refR_none s.curName hms]
    simp

/-- Chunking theorem: under any chunking, the tool calls the streaming
parser emits are the ones the reference parser extracts from the
concatenated text. -/
theorem runParser_ref (chunks : List (List Char)) :
    toolCallsOf (runParser chunks).events = refCalls .await chunks.flatten := by
  unfold runParser
  have hinit : (initPState).state ≠ .content := by simp [initPState]
  obtain ⟨hres, hst⟩ := foldFeed_resid chunks initPState hinit
  have hbrk := foldFeed_break chunks initPState (by refine ⟨?_, ?_, ?_⟩ <;> intro h <;> decide)
  rw [finishTurn_calls _ hst hbrk, hres]
  unfold residCalls
  simp [initPState, modeOf, toolCallsOf]

/-! ## The reference parser on well-formed streams -/

theorem drop_len_add (x y : List Char) (k : Nat) :
    (x ++ y).drop (x.length + k) = y.drop k := by
  rw [← List.drop_drop, List.drop_left]

theorem nf_mem {t : List Char} (h : noFlower t = true) {c : Char} (hc : c ∈ t) : c ≠ flower := by
  simp only [noFlower, List.all_eq_true] at h
  exact of_decide_eq_true (h c hc)

theorem nf_no_occ {t : List Char} (h : noFlower t = true) {tag : List Char}
    (htag : tag ∈ FN_STOP_WORDS) : ∀ j, ¬ tag <+: t.drop j := by
  intro j hocc
  have hlen := hocc.length_le
  have hpos := sw_len_pos _ htag
  have hdl : (t.drop j).length = t.length - j := List.length_drop j t
  have hjt : j < t.length := by omega
  have h0 : (t.drop j)[0]? = tag[0]? := pref_get hocc (by omega)
  rw [List.getElem?_drop, Nat.add_zero, sw_head tag htag] at h0
  have hc : t[j]? = some flower := h0
  exact nf_mem h (List.getElem?_mem hc) rfl

theorem nf_findSub_none {t : List Char} (h : noFlower t = true) {tag : List Char}
    (htag : tag ∈ FN_STOP_WORDS) : findSub t tag = none := by
  cases hfs : findSub t tag with
  | none => rfl
  | some i => exact absurd (fs_occ hfs) (nf_no_occ h htag i)

theorem nf_minStop_none {t : List Char} (h : noFlower t = true) : minStop t = none := by
  cases hms : minStop t with
  | none => rfl
  | some p =>
    obtain ⟨j, tag⟩ := p
    obtain ⟨htag, hfs, _⟩ := minStop_some_elim hms
    rw [nf_findSub_none h htag] at hfs
    cases hfs

theorem fs_flower_first {a : List Char} (r : List Char) (ha : noFlower a = true)
    {tag : List Char} (htag : tag ∈ FN_STOP_WORDS) :
    findSub (a ++ (tag ++ r)) tag = some a.length := by
  apply fs_build
  · rw [List.drop_left]
    exact List.prefix_append tag r
  · intro j hj hocc
    have hlen := hocc.length_le
    have hpos := sw_len_pos _ htag
    have h0 : ((a ++ (tag ++ r)).drop j)[0]? = tag[0]? := pref_get hocc (by omega)
    rw [List.getElem?_drop, Nat.add_zero, sw_head tag htag] at h0
    have hc : a[j]? = some flower := by
      rw [← List.getElem?_append_left (by omega : j < a.length)]
      exact h0
    exact absurd rfl (nf_mem ha (List.getElem?_mem hc))

theorem minStop_flower_first {a : List Char} (r : List Char) (ha : noFlower a = true)
    {tag : List Char} (htag : tag ∈ FN_STOP_WORDS) :
    minStop (a ++ (tag ++ r)) = some (a.length, tag) := by
  apply minStop_intro htag (fs_flower_first r ha htag)
  intro tg htg hne i' hfs'
  have hocc' := fs_occ hfs'
  have hposg := sw_len_pos _ htg
  rcases Nat.lt_trichotomy a.length i' with hlt | heq | hgt
  · exact hlt
  · exfalso
    subst heq
    rw [List.drop_left] at hocc'
    have hocc1 : tag <+: tag ++ r := List.prefix_append tag r
    rcases Nat.le_total tag.length tg.length with hlen | hlen
    · exact sw_no_pref tag htag tg htg (fun hx => hne hx.symm)
        (List.prefix_of_prefix_length_le hocc1 hocc' hlen)
    · exact sw_no_pref tg htg tag htag hne
        (List.prefix_of_prefix_length_le hocc' hocc1 hlen)
  · exfalso
    have h0 : ((a ++ (tag ++ r)).drop i')[0]? = tg[0]? := pref_get hocc' (by omega)
    rw [List.getElem?_drop, Nat.add_zero, sw_head tg htg] at h0
    have hc : a[i']? = some flower := by
      rw [← List.getElem?_append_left (by omega : i' < a.length)]
      exact h0
    exact absurd rfl (nf_mem ha (List.getElem?_mem hc))

theorem closeTag_mem (tag : CloseTag) : tag.render ∈ FN_STOP_WORDS := by
  cases tag <;> decide

theorem closeTag_ne_fnName (tag : CloseTag) : tag.render ≠ FN_NAME := by
  cases tag <;> decide

/-- The reference parser extracts exactly the expected calls from a
rendered well-formed call sequence. -/
theorem refName_render : ∀ (c : CallsFrom), wfCalls c = true →
    refCalls .name (renderCallsFrom c) = expectedCalls c := by
  intro c
  induction c with
  | last nm a =>
    intro hwf
    simp only [wfCalls, Bool.and_eq_true] at hwf
    obtain ⟨hnm, ha⟩ := hwf
    simp only [renderCallsFrom, expectedCalls, List.append_assoc]
    rw [refN_some (fs_flower_first a hnm fnArgs_mem)]
    rw [List.take_left, drop_len_add, List.drop_left]
    rw [refR_none _ (nf_minStop_none ha)]
  | closed nm a tag post =>
    intro hwf
    simp only [wfCalls, Bool.and_eq_true] at hwf
    obtain ⟨⟨hnm, ha⟩, hpost⟩ := hwf
    simp only [renderCallsFrom, expectedCalls, List.append_assoc]
    rw [refN_some (fs_flower_first _ hnm fnArgs_mem)]
    rw [List.take_left, drop_len_add, List.drop_left]
    rw [refR_some _ (minStop_flower_first _ ha (closeTag_mem tag))]
    rw [List.take_left, drop_len_add, List.drop_left]
    rw [if_neg (closeTag_ne_fnName tag)]
    rw [refA_none (nf_findSub_none hpost fnName_mem)]
  | closedThen nm a tag post next ih =>
    intro hwf
    simp only [wfCalls, Bool.and_eq_true] at hwf
    obtain ⟨⟨⟨hnm, ha⟩, hpost⟩, hnext⟩ := hwf
    simp only [renderCallsFrom, expectedCalls, List.append_assoc]
    rw [refN_some (fs_flower_first _ hnm fnArgs_mem)]
    rw [List.take_left, drop_len_add, List.drop_left]
    rw [refR_some _ (minStop_flower_first _ ha (closeTag_mem tag))]
    rw [List.take_left, drop_len_add, List.drop_left]
    rw [if_neg (closeTag_ne_fnName tag)]
    rw [refA_some (fs_flower_first _ hpost fnName_mem)]
    rw [drop_len_add, List.drop_left]
    rw [ih hnext]
  | chained nm a next ih =>
    intro hwf
    simp only [wfCalls, Bool.and_eq_true] at hwf
    obtain ⟨⟨hnm, ha⟩, hnext⟩ := hwf
    simp only [renderCallsFrom, expectedCalls, List.append_assoc]
    rw [refN_some (fs_flower_first _ hnm fnArgs_mem)]
    rw [List.take_left, drop_len_add, List.drop_left]
    rw [refR_some _ (minStop_flower_first _ ha fnName_mem)]
    rw [List.take_left, drop_len_add, List.drop_left]
    rw [if_pos rfl]
    rw [ih hnext]

/-- The reference parser on a whole well-formed stream. -/
theorem refStream_correct (pre : List Char) (calls : Option CallsFrom)
    (hwf : wfStream pre calls = true) :
    refCalls .await (renderStream pre calls) = expectedStream calls := by
  cases calls with
  | none =>
    simp only [renderStream, expectedStream]
    exact refA_none (nf_findSub_none hwf fnName_mem)
  | some c =>
    simp only [wfStream, Bool.and_eq_true] at hwf
    obtain ⟨hpre, hc⟩ := hwf
    simp only [renderStream, expectedStream, List.append_assoc]
    rw [refA_some (fs_flower_first _ hpre fnName_mem)]
    rw [drop_len_add, List.drop_left]
    exact refName_render c hc

/-- C4: for any model byte stream containing k well-formed in-band tool
calls (each `FN_NAME`, a name, `FN_ARGS`, args, then a terminator among
`FN_NAME`/`FN_RESULT`/`FN_EXIT` or end of stream), fed to the streaming
parser in any chunking, the parser emits exactly k `ToolCall` events, in
stream order, whose `function_name` and `args` equal the written name and
args after stripping surrounding whitespace and colons (ASCII or
full-width).  Well-formedness means the surrounding text, names and args
are free of the sentinel marker character `✿`. -/
theorem c4_parser_round_trip (pre : List Char) (calls : Option CallsFrom)
    (chunks : List (List Char)) (hwf : wfStream pre calls = true)
    (hch : chunks.flatten = renderStream pre calls) :
    toolCallsOf (runParser chunks).events = expectedStream calls := by
  rw [runParser_ref, hch]
  exact refStream_correct pre calls hwf

theorem c4_parser_round_trip_witness :
    toolCallsOf (runParser ["ok ✿FUNC".data, "TION✿ zoom✿AR".data, "GS✿ {} ".data]).events =
      expectedStream (some (.last " zoom".data " {} ".data)) :=
  c4_parser_round_trip "ok ".data (some (.last " zoom".data " {} ".data))
    ["ok ✿FUNC".data, "TION✿ zoom✿AR".data, "GS✿ {} ".data] (by decide) (by decide)

/-! ## Classification of delta events (content vs reasoning) -/

theorem isRD_not_CD {e : ChatEvent} (h : isReasoningDeltaB e = true) :
    isContentDeltaB e = false := by
  cases e <;> simp_all [isReasoningDeltaB, isContentDeltaB]

theorem car_cons_rd {e : ChatEvent} (evs : List ChatEvent) (h : isReasoningDeltaB e = true) :
    contentAfterReasoning (e :: evs) = (e :: evs).any isContentDeltaB := by
  simp [contentAfterReasoning, List.dropWhile_cons, h]

theorem car_cons_not {e : ChatEvent} (evs : List ChatEvent) (h : isReasoningDeltaB e = false) :
    contentAfterReasoning (e :: evs) = contentAfterReasoning evs := by
  simp [contentAfterReasoning, List.dropWhile_cons, h]

theorem car_of_noRD : ∀ {evs : List ChatEvent}, evs.any isReasoningDeltaB = false →
    contentAfterReasoning evs = false := by
  intro evs
  induction evs with
  | nil => intro _; rfl
  | cons e evs ih =>
    intro h
    simp only [List.any_cons, Bool.or_eq_false_iff] at h
    rw [car_cons_not evs h.1]
    exact ih h.2

theorem car_append_keep {evs : List ChatEvent} {e : ChatEvent}
    (h : contentAfterReasoning evs = false) (hcd : isContentDeltaB e = false) :
    contentAfterReasoning (evs ++ [e]) = false := by
  induction evs with
  | nil =>
    cases he : isReasoningDeltaB e
    · simpa using car_of_noRD (by simp [he])
    · rw [List.nil_append, car_cons_rd [] he]
      simp [hcd]
  | cons e' evs ih =>
    cases he' : isReasoningDeltaB e'
    · rw [List.cons_append, car_cons_not _ he']
      rw [car_cons_not _ he'] at h
      exact ih h
    · rw [List.cons_append, car_cons_rd _ he']
      rw [car_cons_rd _ he'] at h
      simp only [List.any_cons, Bool.or_eq_false_iff] at h
      simp only [List.any_cons, List.any_append, List.any_nil, Bool.or_eq_false_iff]
      exact ⟨h.1, h.2, by simp [hcd]⟩

theorem car_append_all : ∀ (l : List ChatEvent) {evs : List ChatEvent},
    contentAfterReasoning evs = false → (∀ e ∈ l, isContentDeltaB e = false) →
    contentAfterReasoning (evs ++ l) = false := by
  intro l
  induction l with
  | nil => intro evs h _; simpa using h
  | cons e l ih =>
    intro evs h hall
    have : evs ++ e :: l = (evs ++ [e]) ++ l := by simp
    rw [this]
    exact ih (car_append_keep h (hall e (by simp))) (fun x hx => hall x (by simp [hx]))

theorem cs_of_occ {t p : List Char} {j : Nat} (h : p <+: t.drop j) : containsSub t p = true := by
  unfold containsSub
  cases hfs : findSub t p with
  | some i => rfl
  | none => exact absurd h (fs_none hfs j)


/-- Per-step invariant for the delta classification: `ContentDelta` is only
emitted while `assistant_reasoning` is empty (so no `ContentDelta` follows a
`ReasoningDelta`); the buffer stays a suffix of the consumed text;
`assistant_reasoning` only becomes non-empty once `FN_ARGS` has appeared in
the consumed text; and the `ToolCallArgs` state implies non-empty reasoning. -/
theorem stepParse_c5 (chunk : List Char) (s : PState) (consumed : List Char)
    (hs : s.state ≠ .content)
    (h1 : s.reasoning = [] → s.events.any isReasoningDeltaB = false)
    (h2 : contentAfterReasoning s.events = false)
    (hsuf : ∃ p, consumed = p ++ s.buf)
    (hre : s.reasoning ≠ [] → containsSub consumed FN_ARGS = true)
    (ha : s.state = .toolCallArgs → s.reasoning ≠ []) :
    (stepParse chunk s).1.state ≠ .content ∧
    ((stepParse chunk s).1.reasoning = [] →
        (stepParse chunk s).1.events.any isReasoningDeltaB = false) ∧
    contentAfterReasoning (stepParse chunk s).1.events = false ∧
    (∃ p, consumed = p ++ (stepParse chunk s).1.buf) ∧
    ((stepParse chunk s).1.reasoning ≠ [] → containsSub consumed FN_ARGS = true) ∧
    ((stepParse chunk s).1.state = .toolCallArgs → (stepParse chunk s).1.reasoning ≠ []) := by
  obtain ⟨p, hp⟩ := hsuf
  have hdropsuf : ∀ m : Nat, ∃ q, consumed = q ++ s.buf.drop m := by
    intro m
    exact ⟨p ++ s.buf.take m, by rw [List.append_assoc, List.take_append_drop]; exact hp⟩
  cases hstate : s.state with
  | content => exact absurd hstate hs
  | awaitingDecision =>
    cases hfs : findSub s.buf FN_NAME with
    | some idx =>
      by_cases hrp : s.buf.take idx = ([] : List Char)
      · have hsp : stepParse chunk s =
            ({ s with state := .toolCallName, buf := s.buf.drop (idx + FN_NAME.length),
                      events := s.events ++ [ChatEvent.toolDelta FN_NAME] }, true) := by
          simp [stepParse, hstate, hfs, hrp]
        rw [hsp]
        refine ⟨by simp, ?_, ?_, hdropsuf _, hre, ?_⟩
        · intro hre'
          simp [List.any_append, h1 hre', isReasoningDeltaB]
        · exact car_append_keep h2 (by simp [isContentDeltaB])
        · intro h; simp at h
      · by_cases hrea : s.reasoning = ([] : List Char)
        · have hsp : stepParse chunk s =
              ({ s with state := .toolCallName, buf := s.buf.drop (idx + FN_NAME.length),
                        contentAcc := s.contentAcc ++ s.buf.take idx,
                        events := s.events ++ [ChatEvent.contentDelta (s.buf.take idx)] ++
                          [ChatEvent.toolDelta FN_NAME] }, true) := by
            simp [stepParse, hstate, hfs, hrp, hrea]
          rw [hsp]
          refine ⟨by simp, ?_, ?_, hdropsuf _, hre, ?_⟩
          · intro _
            simp [List.any_append, h1 hrea, isReasoningDeltaB]
          · apply car_of_noRD
            simp [List.any_append, h1 hrea, isReasoningDeltaB]
          · intro h; simp at h
        · have hsp : stepParse chunk s =
              ({ s with state := .toolCallName, buf := s.buf.drop (idx + FN_NAME.length),
                        reasoning := s.reasoning ++ s.buf.take idx,
                        events := s.events ++ [ChatEvent.reasoningDelta (s.buf.take idx)] ++
                          [ChatEvent.toolDelta FN_NAME] }, true) := by
            simp [stepParse, hstate, hfs, hrp, hrea]
          rw [hsp]
          refine ⟨by simp, ?_, ?_, hdropsuf _, fun _ => hre hrea, ?_⟩
          · intro hre'
            simp only at hre'
            exact absurd (List.append_eq_nil.mp hre').1 hrea
          · exact car_append_keep (car_append_keep h2 (by simp [isContentDeltaB]))
              (by simp [isContentDeltaB])
          · intro h; simp at h
    | none =>
      by_cases hbig : FN_MAX_LEN < utf8Len s.buf
      · by_cases hpos : 0 < splitBound s.buf (utf8Len s.buf - FN_MAX_LEN / 2)
        · by_cases hrea : s.reasoning = ([] : List Char)
          · have hsp : stepParse chunk s =
                ({ s with buf := s.buf.drop (splitBound s.buf (utf8Len s.buf - FN_MAX_LEN / 2)),
                          contentAcc := s.contentAcc ++
                            s.buf.take (splitBound s.buf (utf8Len s.buf - FN_MAX_LEN / 2)),
                          events := s.events ++ [ChatEvent.contentDelta
                            (s.buf.take (splitBound s.buf (utf8Len s.buf - FN_MAX_LEN / 2)))] },
                  true) := by
              simp [stepParse, hstate, hfs, hbig, hpos, hrea]
            rw [hsp]
            refine ⟨by simp [hstate], ?_, ?_, hdropsuf _, hre, ?_⟩
            · intro _
              simp [List.any_append, h1 hrea, isReasoningDeltaB]
            · apply car_of_noRD
              simp [List.any_append, h1 hrea, isReasoningDeltaB]
            · intro h; rw [hstate] at h; simp at h
          · have hsp : stepParse chunk s =
                ({ s with buf := s.buf.drop (splitBound s.buf (utf8Len s.buf - FN_MAX_LEN / 2)),
                          thinking := s.thinking ++
                            s.buf.take (splitBound s.buf (utf8Len s.buf - FN_MAX_LEN / 2)),
                          events := s.events ++ [ChatEvent.reasoningDelta
                            (s.buf.take (splitBound s.buf (utf8Len s.buf - FN_MAX_LEN / 2)))] },
                  true) := by
              simp [stepParse, hstate, hfs, hbig, hpos, hrea]
            rw [hsp]
            refine ⟨by simp [hstate], ?_, ?_, hdropsuf _, fun _ => hre hrea, ?_⟩
            · intro hre'
              exact absurd hre' hrea
            · exact car_append_keep h2 (by simp [isContentDeltaB])
            · intro h; rw [hstate] at h; simp at h
        · have hsp : stepParse chunk s = (s, false) := by
            simp [stepParse, hstate, hfs, hbig, hpos]
          rw [hsp]
          exact ⟨hs, h1, h2, ⟨p, hp⟩, hre, ha⟩
      · have hsp : stepParse chunk s = (s, false) := by
          simp [stepParse, hstate, hfs, hbig]
        rw [hsp]
        exact ⟨hs, h1, h2, ⟨p, hp⟩, hre, ha⟩
  | toolCallName =>
    cases hfs : findSub s.buf FN_ARGS with
    | some idx =>
      have hocc : FN_ARGS <+: consumed.drop (p.length + idx) := by
        rw [hp, drop_len_add]
        exact fs_occ hfs
      have hcs : containsSub consumed FN_ARGS = true := cs_of_occ hocc
      have hsp : stepParse chunk s =
          ({ s with state := .toolCallArgs, buf := s.buf.drop (idx + FN_ARGS.length),
                    curName := stripTok (s.buf.take idx),
                    reasoning := s.reasoning ++ (s.buf.take idx ++ FN_ARGS),
                    events := s.events ++
                      [ChatEvent.toolDelta (s.buf.take idx ++ FN_ARGS)] }, true) := by
        simp [stepParse, hstate, hfs]
      rw [hsp]
      refine ⟨by simp, ?_, ?_, hdropsuf _, fun _ => hcs, ?_⟩
      · intro hre'
        simp only at hre'
        exact absurd (List.append_eq_nil.mp (List.append_eq_nil.mp hre').2).2 (by decide)
      · exact car_append_keep h2 (by simp [isContentDeltaB])
      · intro _
        simp only
        intro hnil
        exact absurd (List.append_eq_nil.mp (List.append_eq_nil.mp hnil).2).2 (by decide)
    | none =>
      have hsp : stepParse chunk s = (s, false) := by
        simp [stepParse, hstate, hfs]
      rw [hsp]
      exact ⟨hs, h1, h2, ⟨p, hp⟩, hre, ha⟩
  | toolCallArgs =>
    have hrea : s.reasoning ≠ [] := ha hstate
    cases hms : minStop s.buf with
    | some q =>
      obtain ⟨idx, tag⟩ := q
      by_cases htag : tag = FN_EXIT
      · have hsp : stepParse chunk s =
            ({ s with state := if tag = FN_NAME then .toolCallName else .awaitingDecision,
                      buf := s.buf.drop (idx + tag.length),
                      reasoning := s.reasoning ++ s.buf.take idx,
                      events := s.events ++ [ChatEvent.toolDelta chunk] ++
                        [ChatEvent.toolCall s.curName (stripTok (s.buf.take idx))] }, true) := by
          simp [stepParse, hstate, hms, htag]
        rw [hsp]
        refine ⟨?_, ?_, ?_, hdropsuf _, fun _ => hre hrea, ?_⟩
        · by_cases htg : tag = FN_NAME <;> simp [htg]
        · intro hre'
          simp only at hre'
          exact absurd (List.append_eq_nil.mp hre').1 hrea
        · exact car_append_keep (car_append_keep h2 (by simp [isContentDeltaB]))
            (by simp [isContentDeltaB])
        · intro _
          simp only
          intro hnil
          exact absurd (List.append_eq_nil.mp hnil).1 hrea
      · have hsp : stepParse chunk s =
            ({ s with state := if tag = FN_NAME then .toolCallName else .awaitingDecision,
                      buf := s.buf.drop (idx + tag.length),
                      reasoning := s.reasoning ++ s.buf.take idx,
                      events := s.events ++ [ChatEvent.toolDelta chunk] ++
                        [ChatEvent.toolCall s.curName (stripTok (s.buf.take idx))] ++
                        [ChatEvent.toolDelta tag] }, true) := by
          simp [stepParse, hstate, hms, htag]
        rw [hsp]
        refine ⟨?_, ?_, ?_, hdropsuf _, fun _ => hre hrea, ?_⟩
        · by_cases htg : tag = FN_NAME <;> simp [htg]
        · intro hre'
          simp only at hre'
          exact absurd (List.append_eq_nil.mp hre').1 hrea
        · exact car_append_keep (car_append_keep (car_append_keep h2
            (by simp [isContentDeltaB])) (by simp [isContentDeltaB]))
            (by simp [isContentDeltaB])
        · intro _
          simp only
          intro hnil
          exact absurd (List.append_eq_nil.mp hnil).1 hrea
    | none =>
      have hsp : stepParse chunk s =
          ({ s with events := s.events ++ [ChatEvent.toolDelta chunk] }, false) := by
        simp [stepParse, hstate, hms]
      rw [hsp]
      refine ⟨by simp [hstate], ?_, ?_, ⟨p, hp⟩, fun _ => hre hrea, fun _ => hrea⟩
      · intro hre'
        exact absurd hre' hrea
      · exact car_append_keep h2 (by simp [isContentDeltaB])


theorem cs_app (u : List Char) {t p : List Char} (hp : p ≠ []) (h : containsSub t p = true) :
    containsSub (t ++ u) p = true := by
  unfold containsSub at h ⊢
  cases hfs : findSub t p with
  | none => rw [hfs] at h; simp at h
  | some i => rw [fs_app_some u hfs hp]; rfl

theorem loopGo_c5 (chunk consumed : List Char) :
    ∀ (fuel : Nat) (s : PState), s.state ≠ .content →
      (s.reasoning = [] → s.events.any isReasoningDeltaB = false) →
      contentAfterReasoning s.events = false →
      (∃ p, consumed = p ++ s.buf) →
      (s.reasoning ≠ [] → containsSub consumed FN_ARGS = true) →
      (s.state = .toolCallArgs → s.reasoning ≠ []) →
      ((loopGo chunk fuel s).state ≠ .content ∧
        ((loopGo chunk fuel s).reasoning = [] →
          (loopGo chunk fuel s).events.any isReasoningDeltaB = false) ∧
        contentAfterReasoning (loopGo chunk fuel s).events = false ∧
        (∃ p, consumed = p ++ (loopGo chunk fuel s).buf) ∧
        ((loopGo chunk fuel s).reasoning ≠ [] → containsSub consumed FN_ARGS = true) ∧
        ((loopGo chunk fuel s).state = .toolCallArgs → (loopGo chunk fuel s).reasoning ≠ [])) := by
  intro fuel
  induction fuel with
  | zero => intro s hs h1 h2 hsuf hre ha; exact ⟨hs, h1, h2, hsuf, hre, ha⟩
  | succ n ih =>
    intro s hs h1 h2 hsuf hre ha
    simp only [loopGo]
    have hstep := stepParse_c5 chunk s consumed hs h1 h2 hsuf hre ha
    cases hsp : stepParse chunk s with
    | mk s1 cont =>
      rw [hsp] at hstep
      obtain ⟨a, b, c, d, e, f⟩ := hstep
      cases cont
      · exact ⟨a, b, c, d, e, f⟩
      · exact ih s1 a b c d e f

theorem feedChunk_c5 (s : PState) (c consumed : List Char) (hs : s.state ≠ .content)
    (h1 : s.reasoning = [] → s.events.any isReasoningDeltaB = false)
    (h2 : contentAfterReasoning s.events = false)
    (hsuf : ∃ p, consumed = p ++ s.buf)
    (hre : s.reasoning ≠ [] → containsSub consumed FN_ARGS = true)
    (ha : s.state = .toolCallArgs → s.reasoning ≠ []) :
    ((feedChunk s c).state ≠ .content ∧
      ((feedChunk s c).reasoning = [] →
        (feedChunk s c).events.any isReasoningDeltaB = false) ∧
      contentAfterReasoning (feedChunk s c).events = false ∧
      (∃ p, consumed ++ c = p ++ (feedChunk s c).buf) ∧
      ((feedChunk s c).reasoning ≠ [] → containsSub (consumed ++ c) FN_ARGS = true) ∧
      ((feedChunk s c).state = .toolCallArgs → (feedChunk s c).reasoning ≠ [])) := by
  obtain ⟨p, hp⟩ := hsuf
  unfold feedChunk
  exact loopGo_c5 c (consumed ++ c) ((s.buf ++ c).length + 1) { s with buf := s.buf ++ c }
    hs h1 h2 ⟨p, by rw [hp, List.append_assoc]⟩
    (fun h => cs_app c (by decide) (hre h)) ha

theorem foldFeed_c5 : ∀ (chunks : List (List Char)) (s : PState) (consumed : List Char),
    s.state ≠ .content →
    (s.reasoning = [] → s.events.any isReasoningDeltaB = false) →
    contentAfterReasoning s.events = false →
    (∃ p, consumed = p ++ s.buf) →
    (s.reasoning ≠ [] → containsSub consumed FN_ARGS = true) →
    (s.state = .toolCallArgs → s.reasoning ≠ []) →
    ((chunks.foldl feedChunk s).state ≠ .content ∧
      ((chunks.foldl feedChunk s).reasoning = [] →
        (chunks.foldl feedChunk s).events.any isReasoningDeltaB = false) ∧
      contentAfterReasoning (chunks.foldl feedChunk s).events = false ∧
      (∃ p, consumed ++ chunks.flatten = p ++ (chunks.foldl feedChunk s).buf) ∧
      ((chunks.foldl feedChunk s).reasoning ≠ [] →
        containsSub (consumed ++ chunks.flatten) FN_ARGS = true) ∧
      ((chunks.foldl feedChunk s).state = .toolCallArgs →
        (chunks.foldl feedChunk s).reasoning ≠ [])) := by
  intro chunks
  induction chunks with
  | nil =>
    intro s consumed hs h1 h2 hsuf hre ha
    simp only [List.foldl_nil, List.flatten_nil, List.append_nil]
    exact ⟨hs, h1, h2, hsuf, hre, ha⟩
  | cons c cs ih =>
    intro s consumed hs h1 h2 hsuf hre ha
    simp only [List.foldl_cons, List.flatten_cons]
    obtain ⟨a1, a2, a3, a4, a5, a6⟩ := feedChunk_c5 s c consumed hs h1 h2 hsuf hre ha
    have hrec := ih (feedChunk s c) (consumed ++ c) a1 a2 a3 a4 a5 a6
    simpa [List.append_assoc] using hrec

theorem finishTurn_c5 (s : PState) (consumed : List Char)
    (hs : s.state ≠ .content)
    (h1 : s.reasoning = [] → s.events.any isReasoningDeltaB = false)
    (h2 : contentAfterReasoning s.events = false)
    (hre : s.reasoning ≠ [] → containsSub consumed FN_ARGS = true)
    (ha : s.state = .toolCallArgs → s.reasoning ≠ []) :
    contentAfterReasoning (finishTurn s).events = false ∧
    ((finishTurn s).events.any isReasoningDeltaB = true →
      containsSub consumed FN_ARGS = true) := by
  cases hstate : s.state with
  | content => exact absurd hstate hs
  | awaitingDecision =>
    by_cases hb : s.buf = ([] : List Char)
    · have hfin : finishTurn s = s := by simp [finishTurn, hstate, hb]
      rw [hfin]
      refine ⟨h2, fun hany => ?_⟩
      by_cases hrea : s.reasoning = ([] : List Char)
      · rw [h1 hrea] at hany; cases hany
      · exact hre hrea
    · by_cases hrea : s.reasoning = ([] : List Char)
      · have hfin : finishTurn s =
            { s with buf := [], contentAcc := s.contentAcc ++ s.buf,
                     events := s.events ++ [ChatEvent.contentDelta s.buf] } := by
          simp [finishTurn, hstate, hb, hrea]
        rw [hfin]
        have hno : (s.events ++ [ChatEvent.contentDelta s.buf]).any isReasoningDeltaB = false := by
          simp [List.any_append, h1 hrea, isReasoningDeltaB]
        refine ⟨car_of_noRD hno, fun hany => ?_⟩
        have hany' : (s.events ++ [ChatEvent.contentDelta s.buf]).any isReasoningDeltaB =
            true := hany
        rw [hno] at hany'
        cases hany'
      · have hfin : finishTurn s =
            { s with buf := [], thinking := s.thinking ++ s.buf,
                     events := s.events ++ [ChatEvent.reasoningDelta s.buf] } := by
          simp [finishTurn, hstate, hb, hrea]
        rw [hfin]
        exact ⟨car_append_keep h2 (by simp [isContentDeltaB]), fun _ => hre hrea⟩
  | toolCallName =>
    by_cases hb : s.buf = ([] : List Char)
    · have hfin : finishTurn s = s := by simp [finishTurn, hstate, hb]
      rw [hfin]
      refine ⟨h2, fun hany => ?_⟩
      by_cases hrea : s.reasoning = ([] : List Char)
      · rw [h1 hrea] at hany; cases hany
      · exact hre hrea
    · by_cases hrea : s.reasoning = ([] : List Char)
      · have hfin : finishTurn s =
            { s with buf := [], contentAcc := s.contentAcc ++ s.buf,
                     events := s.events ++ [ChatEvent.contentDelta s.buf] } := by
          simp [finishTurn, hstate, hb, hrea]
        rw [hfin]
        have hno : (s.events ++ [ChatEvent.contentDelta s.buf]).any isReasoningDeltaB = false := by
          simp [List.any_append, h1 hrea, isReasoningDeltaB]
        refine ⟨car_of_noRD hno, fun hany => ?_⟩
        have hany' : (s.events ++ [ChatEvent.contentDelta s.buf]).any isReasoningDeltaB =
            true := hany
        rw [hno] at hany'
        cases hany'
      · have hfin : finishTurn s =
            { s with buf := [], thinking := s.thinking ++ s.buf,
                     events := s.events ++ [ChatEvent.reasoningDelta s.buf] } := by
          simp [finishTurn, hstate, hb, hrea]
        rw [hfin]
        exact ⟨car_append_keep h2 (by simp [isContentDeltaB]), fun _ => hre hrea⟩
  | toolCallArgs =>
    have hrea := ha hstate
    have hfin : finishTurn s =
        { s with buf := [], reasoning := s.reasoning ++ s.buf,
                 events := s.events ++ [ChatEvent.toolDelta s.buf,
                   ChatEvent.toolCall s.curName (stripTok s.buf)] } := by
      simp [finishTurn, hstate]
    rw [hfin]
    refine ⟨?_, fun _ => hre hrea⟩
    apply car_append_all _ h2
    intro e he
    rcases List.mem_cons.mp he with h | h
    · simp [h, isContentDeltaB]
    · rcases List.mem_cons.mp h with h | h
      · simp [h, isContentDeltaB]
      · simp at h


/-- C5 counterexample: the claim that every non-tool fragment emitted after a
`FN_NAME` marker has been observed in the turn is a `ReasoningDelta` is false.
For the single-chunk turn `"A✿FUNCTION✿B"` the parser ends the turn in the
`ToolCallName` state with `assistant_reasoning` still empty (no `FN_ARGS` was
seen), so the end-of-stream flush emits the residual `"B"` as a
`ContentDelta` even though it follows the `ToolDelta FN_NAME` event. -/
theorem c5_counterexample :
    ¬ (∀ (chunks : List (List Char)) (i j : Nat) (d : List Char),
        (runParser chunks).events[i]? = some (ChatEvent.toolDelta FN_NAME) →
        i < j →
        (runParser chunks).events[j]? ≠ some (ChatEvent.contentDelta d)) := by
  intro h
  exact h ["A✿FUNCTION✿B".data] 1 2 "B".data (by decide) (by decide) (by decide)

/-- C5 (amended): the classification of non-tool text flips at the first
`FN_ARGS` marker of the turn (when `assistant_reasoning` becomes non-empty),
not at `FN_NAME`.  In every turn, for any chunking: no `ContentDelta` is ever
emitted after a `ReasoningDelta`, and a `ReasoningDelta` is only emitted at
all if the sentinel `FN_ARGS` occurs in the turn's concatenated text. -/
theorem c5_delta_classification (chunks : List (List Char)) :
    contentAfterReasoning (runParser chunks).events = false ∧
    ((runParser chunks).events.any isReasoningDeltaB = true →
      containsSub chunks.flatten FN_ARGS = true) := by
  unfold runParser
  obtain ⟨hs, h1, h2, hsuf, hre, ha⟩ :=
    foldFeed_c5 chunks initPState [] (by simp [initPState]) (fun _ => rfl) rfl
      ⟨[], rfl⟩ (fun h => absurd rfl h) (fun h => by simp [initPState] at h)
  simp only [List.nil_append] at hre
  exact finishTurn_c5 _ chunks.flatten hs h1 h2 hre ha

theorem c5_delta_classification_witness :
    containsSub (List.flatten ["A✿FUNCTION✿B✿ARGS✿C✿RETURN✿D".data]) FN_ARGS = true :=
  (c5_delta_classification ["A✿FUNCTION✿B✿ARGS✿C✿RETURN✿D".data]).2 (by decide)


/-- C3 counterexample: the two backends do not implement one identical
`release` contract.  On the initial (empty, hence reachable) store and an id
absent from both keyspaces, sled's `release` answers `false` (its transaction
sees no refcount row and does nothing) while redb's `release` reads the
missing counter as 0 via `unwrap_or(0)`, takes the `current_rc <= 1` branch,
and answers `true`. -/
theorem c3_counterexample :
    (SledBlob.release emptyBlob 0).2 = false ∧ (RedbBlob.release emptyBlob 0).2 = true :=
  ⟨rfl, rfl⟩

/-- C3 (amended): the two `release` implementations agree exactly on the ids
that have a refcount row: there they return the same boolean and the same
successor state.  On an id with no refcount row they diverge: sled returns
`false` and leaves the store untouched, while redb returns `true` and
executes the deletion branch (removing any data row for the id). -/
theorem c3_release_equivalence (s : BlobState) (key : Nat) :
    (∀ c, s.rc key = some c → SledBlob.release s key = RedbBlob.release s key) ∧
    (s.rc key = none →
      SledBlob.release s key = (s, false) ∧
      RedbBlob.release s key = ({ data := del s.data key, rc := del s.rc key }, true)) := by
  constructor
  · intro c hc
    simp [SledBlob.release, RedbBlob.release, hc]
  · intro hn
    constructor
    · simp [SledBlob.release, hn]
    · simp [RedbBlob.release, hn]

theorem c3_release_equivalence_witness :
    SledBlob.release ⟨upd emptyBlob.data 7 [1], upd emptyBlob.rc 7 1⟩ 7 =
      RedbBlob.release ⟨upd emptyBlob.data 7 [1], upd emptyBlob.rc 7 1⟩ 7 :=
  (c3_release_equivalence ⟨upd emptyBlob.data 7 [1], upd emptyBlob.rc 7 1⟩ 7).1 1 rfl

/-- C6 counterexample: "save(x) twice leaves exactly one physical copy of x
in the data keyspace" fails on the redb backend.  `RedbBlobStorage::save`
decides deduplication by looking at the *refcount* table, so on a store
where `retain` has created a counter for the id without any data row
(`retain(3)` on the empty store), both saves of `x` (with `h x = 3`) take
the dedup path: both return the id, yet the data keyspace holds no copy of
`x` at all. -/
theorem c6_counterexample :
    (RedbBlob.save (fun _ => 3) (RedbBlob.save (fun _ => 3)
        (RedbBlob.retain emptyBlob 3) [9]).1 [9]).1.data 3 = none ∧
    (RedbBlob.save (fun _ => 3) (RedbBlob.save (fun _ => 3)
        (RedbBlob.retain emptyBlob 3) [9]).1 [9]).2 = 3 :=
  ⟨rfl, rfl⟩

/-- C6 (amended): on a store state that is *coherent at the key* — the data
row and the refcount row for `h x` exist together, and any stored data under
`h x` is `x` itself (content addressing) — saving `x` twice returns the id
`h x` both times, leaves the single copy `some x` in the data keyspace at
that id and no change at any other id, and the second save increments the
refcount by exactly one.  This holds on both backends. -/
theorem c6_save_dedup (h : List Nat → Nat) (s : BlobState) (x : List Nat)
    (hcoh : (s.data (h x)).isSome = (s.rc (h x)).isSome)
    (hdat : ∀ y, s.data (h x) = some y → y = x) :
    ((SledBlob.save h s x).2 = h x ∧
      (SledBlob.save h (SledBlob.save h s x).1 x).2 = h x ∧
      (SledBlob.save h (SledBlob.save h s x).1 x).1.data (h x) = some x ∧
      (∃ c, (SledBlob.save h s x).1.rc (h x) = some c ∧
        (SledBlob.save h (SledBlob.save h s x).1 x).1.rc (h x) = some (c + 1)) ∧
      (∀ j, j ≠ h x →
        (SledBlob.save h (SledBlob.save h s x).1 x).1.data j = s.data j ∧
        (SledBlob.save h (SledBlob.save h s x).1 x).1.rc j = s.rc j)) ∧
    ((RedbBlob.save h s x).2 = h x ∧
      (RedbBlob.save h (RedbBlob.save h s x).1 x).2 = h x ∧
      (RedbBlob.save h (RedbBlob.save h s x).1 x).1.data (h x) = some x ∧
      (∃ c, (RedbBlob.save h s x).1.rc (h x) = some c ∧
        (RedbBlob.save h (RedbBlob.save h s x).1 x).1.rc (h x) = some (c + 1)) ∧
      (∀ j, j ≠ h x →
        (RedbBlob.save h (RedbBlob.save h s x).1 x).1.data j = s.data j ∧
        (RedbBlob.save h (RedbBlob.save h s x).1 x).1.rc j = s.rc j)) := by
  cases hd : s.data (h x) with
  | none =>
    have hr : s.rc (h x) = none := by
      cases hr : s.rc (h x) with
      | none => rfl
      | some c => rw [hd, hr] at hcoh; simp at hcoh
    constructor
    · refine ⟨?_, ?_, ?_, ⟨1, ?_, ?_⟩, ?_⟩
      · simp [SledBlob.save, upd, hd, hr]
      · simp [SledBlob.save, upd, hd, hr]
      · simp [SledBlob.save, upd, hd, hr]
      · simp [SledBlob.save, upd, hd, hr]
      · simp [SledBlob.save, upd, hd, hr]
      · intro j hj
        constructor
        · simp [SledBlob.save, upd, hd, hr, hj]
        · simp [SledBlob.save, upd, hd, hr, hj]
    · refine ⟨?_, ?_, ?_, ⟨1, ?_, ?_⟩, ?_⟩
      · simp [RedbBlob.save, upd, hd, hr]
      · simp [RedbBlob.save, upd, hd, hr]
      · simp [RedbBlob.save, upd, hd, hr]
      · simp [RedbBlob.save, upd, hd, hr]
      · simp [RedbBlob.save, upd, hd, hr]
      · intro j hj
        constructor
        · simp [RedbBlob.save, upd, hd, hr, hj]
        · simp [RedbBlob.save, upd, hd, hr, hj]
  | some y =>
    rw [hdat y hd] at hd
    cases hr : s.rc (h x) with
    | none => rw [hd, hr] at hcoh; simp at hcoh
    | some c =>
      constructor
      · refine ⟨?_, ?_, ?_, ⟨c + 1, ?_, ?_⟩, ?_⟩
        · simp [SledBlob.save, upd, hd, hr]
        · simp [SledBlob.save, upd, hd, hr]
        · simp [SledBlob.save, upd, hd, hr]
        · simp [SledBlob.save, upd, hd, hr]
        · simp [SledBlob.save, upd, hd, hr]
        · intro j hj
          constructor
          · simp [SledBlob.save, upd, hd, hr, hj]
          · simp [SledBlob.save, upd, hd, hr, hj]
      · refine ⟨?_, ?_, ?_, ⟨c + 1, ?_, ?_⟩, ?_⟩
        · simp [RedbBlob.save, upd, hd, hr]
        · simp [RedbBlob.save, upd, hd, hr]
        · simp [RedbBlob.save, upd, hd, hr]
        · simp [RedbBlob.save, upd, hd, hr]
        · simp [RedbBlob.save, upd, hd, hr]
        · intro j hj
          constructor
          · simp [RedbBlob.save, upd, hd, hr, hj]
          · simp [RedbBlob.save, upd, hd, hr, hj]

theorem c6_save_dedup_witness :
    (SledBlob.save (fun _ => 5) (SledBlob.save (fun _ => 5) emptyBlob [1, 2]).1
        [1, 2]).1.data 5 = some [1, 2] ∧
    (RedbBlob.save (fun _ => 5) (RedbBlob.save (fun _ => 5) emptyBlob [1, 2]).1
        [1, 2]).1.rc 5 = some 2 := by
  obtain ⟨hsled, hredb⟩ := c6_save_dedup (fun _ => 5) emptyBlob [1, 2] rfl
    (fun y hy => by simp [emptyBlob] at hy)
  refine ⟨hsled.2.2.1, ?_⟩
  obtain ⟨c, hc1, hc2⟩ := hredb.2.2.2.1
  have hc : c = 1 := by
    have : (RedbBlob.save (fun _ => 5) emptyBlob [1, 2]).1.rc 5 = some 1 := rfl
    rw [this] at hc1
    exact (Option.some.injEq _ _ ▸ hc1.symm : _)
  rw [hc] at hc2
  exact hc2


/-! ## Base36 digit characters and the parse/render folds -/

theorem charVal_digitChar (d : Nat) (h : d < 36) : charVal36 (digitChar36 d) = some d := by
  interval_cases d <;> decide

theorem isDigit_digitChar (d : Nat) (h : d < 36) : isDigit36 (digitChar36 d) = true := by
  simp [isDigit36, charVal_digitChar d h]

theorem digit_not_ws {c : Char} (h : isDigit36 c = true) : isWS c = false := by
  simp only [isDigit36, charVal36] at h
  split_ifs at h with h1 h2 h3
  · simp only [isWS, Bool.or_eq_false_iff, Bool.and_eq_false_iff, decide_eq_false_iff_not]
    omega
  · simp only [isWS, Bool.or_eq_false_iff, Bool.and_eq_false_iff, decide_eq_false_iff_not]
    omega
  · simp only [isWS, Bool.or_eq_false_iff, Bool.and_eq_false_iff, decide_eq_false_iff_not]
    omega
  · simp at h

theorem digit_ne_hyphen {c : Char} (h : isDigit36 c = true) : c ≠ '-' := by
  intro hc
  rw [hc] at h
  exact absurd h (by decide)

theorem digit_ne_slash {c : Char} (h : isDigit36 c = true) : c ≠ '/' := by
  intro hc
  rw [hc] at h
  exact absurd h (by decide)

theorem foldl_rev_ofDigits (b : Nat) :
    ∀ l : List Nat, l.reverse.foldl (fun x d => x * b + d) 0 = Nat.ofDigits b l := by
  intro l
  induction l with
  | nil => simp [Nat.ofDigits]
  | cons d t ih =>
    rw [List.reverse_cons, List.foldl_append, ih, Nat.ofDigits_cons]
    simp [Nat.mul_comm]
    omega

theorem parse36_fold :
    ∀ (l : List Nat) (a : Nat), (∀ d ∈ l, d < 36) →
      (l.map digitChar36).foldl
        (fun acc c =>
          match acc, charVal36 c with
          | some a, some d => some (a * 36 + d)
          | _, _ => none)
        (some a) = some (l.foldl (fun x d => x * 36 + d) a) := by
  intro l
  induction l with
  | nil => intro a _; rfl
  | cons d t ih =>
    intro a hd
    simp only [List.map_cons, List.foldl_cons]
    rw [charVal_digitChar d (hd d (by simp))]
    exact ih (a * 36 + d) (fun x hx => hd x (by simp [hx]))

/-- Round trip of the Base36 digit folds: parsing the rendered string of `n`
gives `n` back. -/
theorem parse36_toStr (n : Nat) : parseBase36 (toStrRadix36 n) = some n := by
  by_cases hn : n = 0
  · subst hn; decide
  · unfold toStrRadix36 parseBase36
    have hne : ((Nat.digits 36 n).reverse.map digitChar36) ≠ [] := by
      simp [Nat.digits_ne_nil_iff_ne_zero.mpr hn]
    simp only [hn, if_false, hne]
    rw [parse36_fold _ 0 (fun d hd => Nat.digits_lt_base (by norm_num)
      (List.mem_reverse.mp hd))]
    have h0 : (Nat.digits 36 n).reverse.foldl (fun x d => x * 36 + d) 0 =
        Nat.ofDigits 36 (Nat.digits 36 n) := foldl_rev_ofDigits 36 _
    rw [h0, Nat.ofDigits_digits]

theorem zeros_fold (k : Nat) :
    (List.replicate k '0').foldl
      (fun acc c =>
        match acc, charVal36 c with
        | some a, some d => some (a * 36 + d)
        | _, _ => none)
      (some 0) = some 0 := by
  induction k with
  | zero => rfl
  | succ m ih => rw [List.replicate_succ, List.foldl_cons]; exact ih

theorem padLeft31_ne_nil (s : List Char) : padLeft31 s ≠ [] := by
  have : (padLeft31 s).length = (31 - s.length) + s.length := by
    simp [padLeft31]
  intro h
  rw [h] at this
  simp at this
  omega

/-- Leading zero padding does not change the parsed value. -/
theorem parse36_pad {s : List Char} {n : Nat} (h : parseBase36 s = some n) :
    parseBase36 (padLeft31 s) = some n := by
  have hs : s ≠ [] := by
    intro he
    rw [he] at h
    simp [parseBase36] at h
  unfold parseBase36 at h ⊢
  simp only [hs, if_false] at h
  simp only [padLeft31_ne_nil s, if_false]
  unfold padLeft31
  rw [List.foldl_append, zeros_fold]
  exact h

/-! ## Big-endian byte round trip -/

theorem digits_len_le_of_lt_pow {b n k : Nat} (hb : 1 < b) (h : n < b ^ k) :
    (Nat.digits b n).length ≤ k := by
  rcases eq_or_ne n 0 with rfl | hn
  · simp
  · rw [Nat.digits_len b n hb hn]
    have := Nat.log_lt_of_lt_pow hn h
    omega

theorem lt_pow_of_digits_len_le {b n k : Nat} (hb : 1 < b)
    (h : (Nat.digits b n).length ≤ k) : n < b ^ k := by
  rcases eq_or_ne n 0 with rfl | hn
  · exact Nat.pos_pow_of_pos k (by omega)
  · rw [Nat.digits_len b n hb hn] at h
    exact Nat.lt_pow_of_log_lt hb (by omega)

theorem fromBytesBE_eq_ofDigits (l : List Nat) :
    fromBytesBE l = Nat.ofDigits 256 l.reverse := by
  have := foldl_rev_ofDigits 256 l.reverse
  rw [List.reverse_reverse] at this
  exact this

theorem ofDigits_replicate0 (b : Nat) : ∀ k, Nat.ofDigits b (List.replicate k 0) = 0 := by
  intro k
  induction k with
  | zero => rfl
  | succ m ih => rw [List.replicate_succ, Nat.ofDigits_cons, ih]; ring

theorem fold256_bound :
    ∀ (l : List Nat) (a : Nat), (∀ b ∈ l, b < 256) →
      l.foldl (fun x b => x * 256 + b) a < (a + 1) * 256 ^ l.length := by
  intro l
  induction l with
  | nil => intro a _; simp
  | cons b t ih =>
    intro a hb
    simp only [List.foldl_cons, List.length_cons]
    have h1 := ih (a * 256 + b) (fun x hx => hb x (by simp [hx]))
    have h2 : (a * 256 + b + 1) ≤ (a + 1) * 256 := by
      have := hb b (by simp)
      nlinarith
    calc t.foldl (fun x b => x * 256 + b) (a * 256 + b)
        < (a * 256 + b + 1) * 256 ^ t.length := h1
      _ ≤ ((a + 1) * 256) * 256 ^ t.length := Nat.mul_le_mul_right _ h2
      _ = (a + 1) * 256 ^ (t.length + 1) := by ring

theorem fromBytesBE_lt (l : List Nat) (h : ∀ b ∈ l, b < 256) :
    fromBytesBE l < 256 ^ l.length := by
  have := fold256_bound l 0 h
  simpa [fromBytesBE] using this

theorem zeros_core (l : List Nat) :
    ∃ z core, l = List.replicate z 0 ++ core ∧
      (core = [] ∨ ∃ c cs, core = c :: cs ∧ c ≠ 0) := by
  induction l with
  | nil => exact ⟨0, [], rfl, Or.inl rfl⟩
  | cons a t ih =>
    by_cases ha : a = 0
    · obtain ⟨z, core, hdec, hcore⟩ := ih
      exact ⟨z + 1, core, by simp [ha, hdec, List.replicate_succ], hcore⟩
    · exact ⟨0, a :: t, rfl, Or.inr ⟨a, t, rfl, ha⟩⟩

/-- `to_bytes_be` of `from_bytes_be` recovers a 20-byte id once left-padded
with zero bytes (asset_id.rs lines 80-91). -/
theorem bytes_roundtrip (id : List Nat) (hlen : id.length = 20)
    (hb : ∀ b ∈ id, b < 256) :
    (toBytesBE (fromBytesBE id)).length ≤ 20 ∧
      List.replicate (20 - (toBytesBE (fromBytesBE id)).length) 0 ++
        toBytesBE (fromBytesBE id) = id := by
  obtain ⟨z, core, hdec, hcore⟩ := zeros_core id
  rcases hcore with hnil | ⟨c, cs, hcons, hc⟩
  · subst hnil
    rw [List.append_nil] at hdec
    have hz : z = 20 := by
      rw [hdec] at hlen
      simpa using hlen
    subst hz hdec
    have h0 : fromBytesBE (List.replicate 20 0) = 0 := by
      rw [fromBytesBE_eq_ofDigits, List.reverse_replicate, ofDigits_replicate0]
    rw [h0]
    refine ⟨by decide, ?_⟩
    have : toBytesBE 0 = [0] := rfl
    rw [this]
    rw [show (20 : Nat) - ([0] : List Nat).length = 19 from rfl]
    rw [← List.replicate_succ' 19 (0 : Nat)]
  · subst hcons
    have hzle : z + (c :: cs).length = 20 := by
      rw [hdec] at hlen
      simpa using hlen
    have hrev : id.reverse = (c :: cs).reverse ++ List.replicate z 0 := by
      rw [hdec]
      simp [List.reverse_append, List.reverse_replicate]
    have hn : fromBytesBE id = Nat.ofDigits 256 (c :: cs).reverse := by
      rw [fromBytesBE_eq_ofDigits, hrev, Nat.ofDigits_append, ofDigits_replicate0]
      ring
    have hmem : ∀ x ∈ (c :: cs).reverse, x < 256 := by
      intro x hx
      exact hb x (by rw [hdec]; exact List.mem_append_right _ (List.mem_reverse.mp hx))
    have hlast : ∀ h : (c :: cs).reverse ≠ [], ((c :: cs).reverse).getLast h ≠ 0 := by
      intro h
      have h1 : ((c :: cs).reverse).getLast? = some c := by
        rw [show (c :: cs).reverse = cs.reverse ++ [c] from by simp]
        exact List.getLast?_concat _
      have h2 := List.getLast?_eq_getLast ((c :: cs).reverse) h
      rw [h1] at h2
      have := Option.some.inj h2
      rw [← this]
      exact hc
    have hdig : Nat.digits 256 (fromBytesBE id) = (c :: cs).reverse := by
      rw [hn]
      exact Nat.digits_ofDigits 256 (by norm_num) _ hmem hlast
    have hne : fromBytesBE id ≠ 0 := by
      intro h0
      rw [h0] at hdig
      simp [Nat.digits_zero] at hdig
    have hbytes : toBytesBE (fromBytesBE id) = c :: cs := by
      unfold toBytesBE
      rw [if_neg hne, hdig, List.reverse_reverse]
    rw [hbytes]
    constructor
    · omega
    · have hz20 : 20 - (c :: cs).length = z := by omega
      rw [hz20, ← hdec]

/-! ## The `from_str` cleaning pipeline on digit strings -/

theorem dropWhile_all_false {p : Char → Bool} :
    ∀ {l : List Char}, (∀ c ∈ l, p c = false) → l.dropWhile p = l := by
  intro l h
  cases l with
  | nil => rfl
  | cons c t =>
    rw [List.dropWhile_cons]
    simp [h c (by simp)]

theorem trimEnds_id {p : Char → Bool} {l : List Char} (h : ∀ c ∈ l, p c = false) :
    trimEnds p l = l := by
  unfold trimEnds dropEndWhile
  rw [dropWhile_all_false h, dropWhile_all_false (fun c hc => h c (List.mem_reverse.mp hc)),
    List.reverse_reverse]

theorem stripLeadGo_no {pre s : List Char} (h : pre.isPrefixOf s = false) :
    ∀ fuel, stripLeadGo fuel pre s = s := by
  intro fuel
  cases fuel with
  | zero => rfl
  | succ k => simp [stripLeadGo, h]

theorem stripLead_no {pre s : List Char} (h : pre.isPrefixOf s = false) :
    stripLead pre s = s :=
  stripLeadGo_no h _

theorem stripLead_strip {pre rest : List Char} (hpre : pre ≠ [])
    (hno : pre.isPrefixOf rest = false) : stripLead pre (pre ++ rest) = rest := by
  obtain ⟨k, hk⟩ : ∃ k, (pre ++ rest).length = k + 1 := by
    cases pre with
    | nil => exact absurd rfl hpre
    | cons a t =>
      exact ⟨t.length + rest.length, by simp only [List.length_append, List.length_cons]; omega⟩
  unfold stripLead
  rw [hk]
  have hyes : pre.isPrefixOf (pre ++ rest) = true := by
    rw [List.isPrefixOf_iff_prefix]
    exact List.prefix_append pre rest
  simp only [stripLeadGo, hpre, hyes, ne_eq, not_false_eq_true, and_self, if_true,
    List.drop_left]
  exact stripLeadGo_no hno k

theorem filter_digits {l : List Char} (h : ∀ c ∈ l, isDigit36 c = true) :
    l.filter (fun c => c ≠ '-') = l := by
  rw [List.filter_eq_self]
  intro c hc
  simpa using digit_ne_hyphen (h c hc)

theorem filter_grouped {p : List Char} (hp : p.length = 31)
    (h : ∀ c ∈ p, isDigit36 c = true) :
    (groupedBase36 p).filter (fun c => c ≠ '-') = p := by
  have hseg : ∀ l : List Char, (∀ c ∈ l, c ∈ p) → l.filter (fun c => c ≠ '-') = l := by
    intro l hl
    rw [List.filter_eq_self]
    intro c hc
    simpa using digit_ne_hyphen (h c (hl c hc))
  unfold groupedBase36
  rw [List.filter_append, List.filter_append, List.filter_append, List.filter_append,
    List.filter_append, List.filter_append, List.filter_append, List.filter_append]
  rw [hseg _ (fun c hc => List.mem_of_mem_take hc),
    hseg _ (fun c hc => List.mem_of_mem_drop (List.mem_of_mem_take hc)),
    hseg _ (fun c hc => List.mem_of_mem_drop (List.mem_of_mem_take hc)),
    hseg _ (fun c hc => List.mem_of_mem_drop (List.mem_of_mem_take hc)),
    hseg _ (fun c hc => List.mem_of_mem_drop (List.mem_of_mem_take hc))]
  rw [show (['-'] : List Char).filter (fun c => c ≠ '-') = [] from rfl]
  have h24 : (p.drop 24).take 7 = p.drop 24 := List.take_of_length_le (by simp [hp])
  have h18 : (p.drop 18).take 6 ++ p.drop 24 = p.drop 18 := by
    rw [show (24 : Nat) = 18 + 6 from rfl, ← List.drop_drop, List.take_append_drop]
  have h12 : (p.drop 12).take 6 ++ p.drop 18 = p.drop 12 := by
    rw [show (18 : Nat) = 12 + 6 from rfl, ← List.drop_drop, List.take_append_drop]
  have h6 : (p.drop 6).take 6 ++ p.drop 12 = p.drop 6 := by
    rw [show (12 : Nat) = 6 + 6 from rfl, ← List.drop_drop, List.take_append_drop]
  simp only [List.append_nil, List.nil_append, List.append_assoc]
  rw [h24, h18, h12, h6, List.take_append_drop]

theorem grouped_length {p : List Char} (hp : p.length = 31) :
    (groupedBase36 p).length = 35 := by
  simp [groupedBase36, hp]

theorem grouped_get5 {p : List Char} (hp : p.length = 31) :
    (groupedBase36 p)[5]? = p[5]? := by
  unfold groupedBase36
  simp only [List.append_assoc]
  rw [List.getElem?_append_left (by simp [hp])]
  exact List.getElem?_take_of_lt (by omega)

theorem grouped_mem {p : List Char} {c : Char} (hc : c ∈ groupedBase36 p) :
    c ∈ p ∨ c = '-' := by
  unfold groupedBase36 at hc
  simp only [List.mem_append, List.mem_singleton] at hc
  rcases hc with ((((((((h | h) | h) | h) | h) | h) | h) | h) | h)
  · exact Or.inl (List.mem_of_mem_take h)
  · exact Or.inr h
  · exact Or.inl (List.mem_of_mem_drop (List.mem_of_mem_take h))
  · exact Or.inr h
  · exact Or.inl (List.mem_of_mem_drop (List.mem_of_mem_take h))
  · exact Or.inr h
  · exact Or.inl (List.mem_of_mem_drop (List.mem_of_mem_take h))
  · exact Or.inr h
  · exact Or.inl (List.mem_of_mem_drop (List.mem_of_mem_take h))

/-- A tag whose sixth character is not a Base36 digit is never a prefix of
a string whose sixth character is one. -/
theorem no_pre6 {pre l : List Char}
    (hl5 : ∃ c, l[5]? = some c ∧ isDigit36 c = true)
    (hp5 : ∃ d, pre[5]? = some d ∧ isDigit36 d = false) :
    pre.isPrefixOf l = false := by
  obtain ⟨c, hc, hct⟩ := hl5
  obtain ⟨d, hd, hdf⟩ := hp5
  cases hb : pre.isPrefixOf l with
  | false => rfl
  | true =>
    exfalso
    have hpref : pre <+: l := List.isPrefixOf_iff_prefix.mp (by rw [hb])
    have h5p : 5 < pre.length := by
      by_contra hcon
      push_neg at hcon
      rw [List.getElem?_eq_none hcon] at hd
      cases hd
    have hq := pref_get hpref (i := 5) h5p
    rw [hc, hd] at hq
    have : c = d := Option.some.inj hq
    rw [this, hdf] at hct
    cases hct

/-- The whole `from_str` cleaning pipeline is the identity on strings of
Base36 digits longer than the tags. -/
theorem cleans_id {s : List Char} (hdig : ∀ c ∈ s, isDigit36 c = true)
    (h5 : 5 < s.length) :
    stripLead "image/".data (stripLead "image-".data (trimEnds isWS
      (stripLead "asset/".data (stripLead "asset-".data (trimEnds isWS s))))) = s := by
  have hl5 : ∃ c, s[5]? = some c ∧ isDigit36 c = true :=
    ⟨s.get ⟨5, h5⟩, List.getElem?_eq_getElem h5, hdig _ (s.get_mem 5 h5)⟩
  have htrim : trimEnds isWS s = s := trimEnds_id (fun c hc => digit_not_ws (hdig c hc))
  rw [htrim, stripLead_no (no_pre6 hl5 ⟨'-', rfl, by decide⟩),
    stripLead_no (no_pre6 hl5 ⟨'/', rfl, by decide⟩), htrim,
    stripLead_no (no_pre6 hl5 ⟨'-', rfl, by decide⟩),
    stripLead_no (no_pre6 hl5 ⟨'/', rfl, by decide⟩)]

theorem padded_digits (n : Nat) : ∀ c ∈ padLeft31 (toStrRadix36 n), isDigit36 c = true := by
  intro c hc
  unfold padLeft31 at hc
  rcases List.mem_append.mp hc with h | h
  · rw [List.eq_of_mem_replicate h]; decide
  · unfold toStrRadix36 at h
    by_cases hn : n = 0
    · simp [hn] at h; rw [h]; decide
    · simp only [hn, if_false] at h
      obtain ⟨d, hd, rfl⟩ := List.mem_map.mp h
      exact isDigit_digitChar d (Nat.digits_lt_base (by norm_num) (List.mem_reverse.mp hd))

theorem padded_len {n : Nat} (h : n < 36 ^ 31) :
    (padLeft31 (toStrRadix36 n)).length = 31 := by
  have hlen : (toStrRadix36 n).length ≤ 31 := by
    unfold toStrRadix36
    by_cases hn : n = 0
    · simp [hn]
    · simp only [hn, if_false, List.length_map, List.length_reverse]
      exact digits_len_le_of_lt_pow (by norm_num) h
  simp only [padLeft31, List.length_append, List.length_replicate]
  omega

/-- `from_str` on a plain digit string: the cleaning pipeline is the
identity and only the Base36 value matters. -/
theorem assetId_digits {s : List Char} {n : Nat} (hdig : ∀ c ∈ s, isDigit36 c = true)
    (h5 : 5 < s.length) (hparse : parseBase36 s = some n) :
    assetIdFromStr s =
      (if 20 < (toBytesBE n).length then .error .overflow
       else .ok (List.replicate (20 - (toBytesBE n).length) 0 ++ toBytesBE n)) := by
  simp only [assetIdFromStr, cleans_id hdig h5, filter_digits hdig, hparse]

theorem no_pre_head {pre l : List Char} {a b : Char} (hp : pre[0]? = some a)
    (hl : l[0]? = some b) (hab : a ≠ b) : pre.isPrefixOf l = false := by
  cases hb2 : pre.isPrefixOf l with
  | false => rfl
  | true =>
    exfalso
    have hpref : pre <+: l := List.isPrefixOf_iff_prefix.mp (by rw [hb2])
    have h0p : 0 < pre.length := by
      by_contra hcon
      push_neg at hcon
      rw [List.getElem?_eq_none hcon] at hp
      cases hp
    have hq := pref_get hpref (i := 0) h0p
    rw [hl, hp] at hq
    exact hab (Option.some.inj hq).symm

theorem grouped_not_ws {p : List Char} (hdig : ∀ c ∈ p, isDigit36 c = true) :
    ∀ c ∈ groupedBase36 p, isWS c = false := by
  intro c hc
  rcases grouped_mem hc with h | h
  · exact digit_not_ws (hdig c h)
  · rw [h]; decide

theorem grouped_hl5 {p : List Char} (hp : p.length = 31)
    (hdig : ∀ c ∈ p, isDigit36 c = true) :
    ∃ c, (groupedBase36 p)[5]? = some c ∧ isDigit36 c = true := by
  refine ⟨p.get ⟨5, by omega⟩, ?_, hdig _ (p.get_mem 5 (by omega))⟩
  rw [grouped_get5 hp]
  exact List.getElem?_eq_getElem (by omega)

/-- `from_str` on the canonical hyphen-grouped form. -/
theorem assetId_grouped {p : List Char} {n : Nat} (hp : p.length = 31)
    (hdig : ∀ c ∈ p, isDigit36 c = true) (hparse : parseBase36 p = some n) :
    assetIdFromStr (groupedBase36 p) =
      (if 20 < (toBytesBE n).length then .error .overflow
       else .ok (List.replicate (20 - (toBytesBE n).length) 0 ++ toBytesBE n)) := by
  have hl5 := grouped_hl5 hp hdig
  have htrim : trimEnds isWS (groupedBase36 p) = groupedBase36 p :=
    trimEnds_id (grouped_not_ws hdig)
  have hcl : stripLead "image/".data (stripLead "image-".data (trimEnds isWS
      (stripLead "asset/".data (stripLead "asset-".data
        (trimEnds isWS (groupedBase36 p)))))) = groupedBase36 p := by
    rw [htrim, stripLead_no (no_pre6 hl5 ⟨'-', rfl, by decide⟩),
      stripLead_no (no_pre6 hl5 ⟨'/', rfl, by decide⟩), htrim,
      stripLead_no (no_pre6 hl5 ⟨'-', rfl, by decide⟩),
      stripLead_no (no_pre6 hl5 ⟨'/', rfl, by decide⟩)]
  simp only [assetIdFromStr, hcl, filter_grouped hp hdig, hparse]

/-- `from_str` on the canonical form with an `asset-` prefix. -/
theorem assetId_grouped_asset {p : List Char} {n : Nat} (hp : p.length = 31)
    (hdig : ∀ c ∈ p, isDigit36 c = true) (hparse : parseBase36 p = some n) :
    assetIdFromStr ("asset-".data ++ groupedBase36 p) =
      (if 20 < (toBytesBE n).length then .error .overflow
       else .ok (List.replicate (20 - (toBytesBE n).length) 0 ++ toBytesBE n)) := by
  have hl5 := grouped_hl5 hp hdig
  have htrimc : trimEnds isWS (groupedBase36 p) = groupedBase36 p :=
    trimEnds_id (grouped_not_ws hdig)
  have htrim : trimEnds isWS ("asset-".data ++ groupedBase36 p) =
      "asset-".data ++ groupedBase36 p := by
    apply trimEnds_id
    intro c hc
    rcases List.mem_append.mp hc with h | h
    · exact (show ∀ ch ∈ "asset-".data, isWS ch = false by decide) c h
    · exact grouped_not_ws hdig c h
  have hcl : stripLead "image/".data (stripLead "image-".data (trimEnds isWS
      (stripLead "asset/".data (stripLead "asset-".data
        (trimEnds isWS ("asset-".data ++ groupedBase36 p)))))) = groupedBase36 p := by
    rw [htrim,
      stripLead_strip (by decide) (no_pre6 hl5 ⟨'-', rfl, by decide⟩),
      stripLead_no (no_pre6 hl5 ⟨'/', rfl, by decide⟩), htrimc,
      stripLead_no (no_pre6 hl5 ⟨'-', rfl, by decide⟩),
      stripLead_no (no_pre6 hl5 ⟨'/', rfl, by decide⟩)]
  simp only [assetIdFromStr, hcl, filter_grouped hp hdig, hparse]

/-- `from_str` on the canonical form with an `image-` prefix. -/
theorem assetId_grouped_image {p : List Char} {n : Nat} (hp : p.length = 31)
    (hdig : ∀ c ∈ p, isDigit36 c = true) (hparse : parseBase36 p = some n) :
    assetIdFromStr ("image-".data ++ groupedBase36 p) =
      (if 20 < (toBytesBE n).length then .error .overflow
       else .ok (List.replicate (20 - (toBytesBE n).length) 0 ++ toBytesBE n)) := by
  have hl5 := grouped_hl5 hp hdig
  have htrimc : trimEnds isWS (groupedBase36 p) = groupedBase36 p :=
    trimEnds_id (grouped_not_ws hdig)
  have htrim : trimEnds isWS ("image-".data ++ groupedBase36 p) =
      "image-".data ++ groupedBase36 p := by
    apply trimEnds_id
    intro c hc
    rcases List.mem_append.mp hc with h | h
    · exact (show ∀ ch ∈ "image-".data, isWS ch = false by decide) c h
    · exact grouped_not_ws hdig c h
  have hcl : stripLead "image/".data (stripLead "image-".data (trimEnds isWS
      (stripLead "asset/".data (stripLead "asset-".data
        (trimEnds isWS ("image-".data ++ groupedBase36 p)))))) = groupedBase36 p := by
    have hno1 : ("asset-".data).isPrefixOf ("image-".data ++ groupedBase36 p) = false :=
      no_pre_head (a := 'a') (b := 'i') rfl rfl (by decide)
    have hno2 : ("asset/".data).isPrefixOf ("image-".data ++ groupedBase36 p) = false :=
      no_pre_head (a := 'a') (b := 'i') rfl rfl (by decide)
    rw [htrim, stripLead_no hno1, stripLead_no hno2, htrim,
      stripLead_strip (by decide) (no_pre6 hl5 ⟨'-', rfl, by decide⟩),
      stripLead_no (no_pre6 hl5 ⟨'/', rfl, by decide⟩)]
  simp only [assetIdFromStr, hcl, filter_grouped hp hdig, hparse]

/-- `from_str` rejects any value at or above `2^160` with the overflow
error. -/
theorem assetId_overflow {m : Nat} (hm : 2 ^ 160 ≤ m) :
    assetIdFromStr (toStrRadix36 m) = .error .overflow := by
  have hm0 : m ≠ 0 := by
    have : 0 < 2 ^ 160 := Nat.pos_pow_of_pos _ (by norm_num)
    omega
  have hdig : ∀ c ∈ toStrRadix36 m, isDigit36 c = true := by
    intro c hc
    unfold toStrRadix36 at hc
    simp only [hm0, if_false] at hc
    obtain ⟨d, hd, rfl⟩ := List.mem_map.mp hc
    exact isDigit_digitChar d (Nat.digits_lt_base (by norm_num) (List.mem_reverse.mp hd))
  have h5 : 5 < (toStrRadix36 m).length := by
    unfold toStrRadix36
    simp only [hm0, if_false, List.length_map, List.length_reverse]
    by_contra hcon
    push_neg at hcon
    have hlt : m < 36 ^ 5 := lt_pow_of_digits_len_le (by norm_num) (by omega)
    have h365 : (36 : Nat) ^ 5 < 2 ^ 160 := by norm_num
    exact absurd hm (Nat.not_le.mpr (hlt.trans h365))
  rw [assetId_digits hdig h5 (parse36_toStr m)]
  have hlen : 20 < (toBytesBE m).length := by
    unfold toBytesBE
    rw [if_neg hm0]
    simp only [List.length_reverse]
    by_contra hcon
    push_neg at hcon
    have hlt : m < 256 ^ 20 := lt_pow_of_digits_len_le (by norm_num) hcon
    have heq : (256 : Nat) ^ 20 = 2 ^ 160 := by norm_num
    rw [heq] at hlt
    exact absurd hm (Nat.not_le.mpr hlt)
  rw [if_pos hlen]

/-- C7: for every 20-byte AssetId value, parsing the canonical string form
yields the id back; the canonical form is the hyphen grouping 6-6-6-6-7 of a
31-character string of Base36 digits; the parse also accepts the 31 digits
without hyphens and with an `asset-` or `image-` prefix; and any Base36
numeral whose value is at least `2^160` is rejected with the overflow
error. -/
theorem c7_asset_id_round_trip (id : List Nat) (hlen : id.length = 20)
    (hbytes : ∀ b ∈ id, b < 256) :
    assetIdFromStr (to_base36_string id) = .ok id ∧
    (∃ p : List Char, p.length = 31 ∧ (∀ c ∈ p, isDigit36 c = true) ∧
      to_base36_string id = groupedBase36 p) ∧
    assetIdFromStr (padLeft31 (toStrRadix36 (fromBytesBE id))) = .ok id ∧
    assetIdFromStr ("asset-".data ++ to_base36_string id) = .ok id ∧
    assetIdFromStr ("image-".data ++ to_base36_string id) = .ok id ∧
    (∀ m : Nat, 2 ^ 160 ≤ m → assetIdFromStr (toStrRadix36 m) = .error .overflow) := by
  have hky : fromBytesBE id < 2 ^ 160 := by
    have h1 := fromBytesBE_lt id hbytes
    rw [hlen] at h1
    have heq : (256 : Nat) ^ 20 = 2 ^ 160 := by norm_num
    rw [heq] at h1
    exact h1
  have h36 : fromBytesBE id < 36 ^ 31 := lt_of_lt_of_le hky (by norm_num)
  have hpadLen : (padLeft31 (toStrRadix36 (fromBytesBE id))).length = 31 := padded_len h36
  have hpadDig := padded_digits (fromBytesBE id)
  have hparse : parseBase36 (padLeft31 (toStrRadix36 (fromBytesBE id))) =
      some (fromBytesBE id) := parse36_pad (parse36_toStr _)
  obtain ⟨hble, hbeq⟩ := bytes_roundtrip id hlen hbytes
  have hifok : (if 20 < (toBytesBE (fromBytesBE id)).length then
      (Except.error AssetIdErr.overflow : Except AssetIdErr (List Nat))
      else .ok (List.replicate (20 - (toBytesBE (fromBytesBE id)).length) 0 ++
        toBytesBE (fromBytesBE id))) = .ok id := by
    rw [if_neg (by omega), hbeq]
  have hgrp : to_base36_string id =
      groupedBase36 (padLeft31 (toStrRadix36 (fromBytesBE id))) := rfl
  refine ⟨?_, ⟨padLeft31 (toStrRadix36 (fromBytesBE id)), hpadLen, hpadDig, hgrp⟩,
    ?_, ?_, ?_, fun m hm => assetId_overflow hm⟩
  · rw [hgrp, assetId_grouped hpadLen hpadDig hparse]
    exact hifok
  · rw [assetId_digits hpadDig (by omega) hparse]
    exact hifok
  · rw [hgrp, assetId_grouped_asset hpadLen hpadDig hparse]
    exact hifok
  · rw [hgrp, assetId_grouped_image hpadLen hpadDig hparse]
    exact hifok

theorem c7_asset_id_round_trip_witness :
    assetIdFromStr (to_base36_string (List.replicate 19 0 ++ [255])) =
      .ok (List.replicate 19 0 ++ [255]) :=
  (c7_asset_id_round_trip (List.replicate 19 0 ++ [255]) (by decide) (by decide)).1


/-! ## Language pick, history append and stream shutdown -/

theorem head?_fmf (q : Message → Bool) (r : List Char → Bool) (f : Message → List Char) :
    ∀ l : List Message,
      (((l.filter q).map f).filter r).head? = (l.find? (fun m => q m && r (f m))).map f := by
  intro l
  induction l with
  | nil => rfl
  | cons m t ih =>
    by_cases hq : q m = true
    · by_cases hr : r (f m) = true
      · simp [List.filter_cons, hq, hr, List.find?_cons]
      · simp [List.filter_cons, hq, hr, List.find?_cons, ih]
    · simp only [Bool.not_eq_true] at hq
      simp [List.filter_cons, hq, List.find?_cons, ih]

theorem chooseLang_none (detect : List Char → Option Lang) (msgs : List Message) :
    chooseLang detect none msgs =
      (match lastNonEmptyUserText msgs with
       | none => Lang.cmn
       | some t => (detect t).getD Lang.cmn) := by
  unfold chooseLang lastNonEmptyUserText
  rw [List.getLast?_eq_head?_reverse]
  have hrev : (((msgs.filter (fun m => m.owner == Role.user)).map userTextOf).filter
      (fun v => 0 < v.length)).reverse =
      (((msgs.reverse.filter (fun m => m.owner == Role.user)).map userTextOf).filter
        (fun v => 0 < v.length)) := by
    rw [← List.filter_reverse, ← List.map_reverse, ← List.filter_reverse]
  rw [hrev, head?_fmf]
  have hpred : (fun m => (m.owner == Role.user) && decide (0 < (userTextOf m).length)) =
      (fun m => (m.owner == Role.user) && !(userTextOf m).isEmpty) := by
    funext m
    cases h : userTextOf m <;> simp [h]
  rw [hpred]
  cases hf : msgs.reverse.find? (fun m => (m.owner == Role.user) && !(userTextOf m).isEmpty) with
  | none => simp
  | some m => simp

/-- C10: with no configured system-prompt language, the language is detected
from the last user message whose concatenated text parts are non-empty,
falling back to Mandarin (`Cmn`) when there is no such message or detection
returns nothing; a configured language short-circuits the detection; and the
per-process default config carries `Some(Cmn)`. -/
theorem c10_default_lang (detect : List Char → Option Lang) (msgs : List Message) :
    chooseLang detect none msgs =
      (match lastNonEmptyUserText msgs with
       | none => Lang.cmn
       | some t => (detect t).getD Lang.cmn) ∧
    (∀ l : Lang, chooseLang detect (some l) msgs = l) ∧
    LLMConfig.defaultConfig.system_prompt_lang = some Lang.cmn :=
  ⟨chooseLang_none detect msgs, fun _ => rfl, rfl⟩

/-- C2: `append_message` cannot fail with an append error.  Under a schedule
on which every one of the 10 CAS attempts sees a buffer different from the
initially read `old_buf` (the expected value is never re-read, so any
interleaved write makes every attempt conflict), the loop exhausts all 10
attempts, nothing is persisted — and the function still returns `Ok` with
the last locally built buffer. -/
theorem c2_append_returns_ok (cid : Nat) (readVal : Option ChatEntry)
    (casSees : Nat → Option ChatEntry) (msg : Message)
    (hconf : ∀ i, i < 10 → casSees i ≠ readVal) :
    (append_message cid readVal casSees msg).1 =
      .ok (append_message_to_buffer cid (casSees 9) msg) ∧
    (append_message cid readVal casSees msg).2 = none := by
  have h0 := hconf 0 (by omega)
  have h1 := hconf 1 (by omega)
  have h2 := hconf 2 (by omega)
  have h3 := hconf 3 (by omega)
  have h4 := hconf 4 (by omega)
  have h5 := hconf 5 (by omega)
  have h6 := hconf 6 (by omega)
  have h7 := hconf 7 (by omega)
  have h8 := hconf 8 (by omega)
  have h9 := hconf 9 (by omega)
  have hrange : (List.range 10).map casSees =
      [casSees 0, casSees 1, casSees 2, casSees 3, casSees 4, casSees 5, casSees 6,
       casSees 7, casSees 8, casSees 9] := by
    rw [show List.range 10 = [0, 1, 2, 3, 4, 5, 6, 7, 8, 9] from by decide]
    rfl
  simp only [append_message, hrange, casLoop]
  simp [h0, h1, h2, h3, h4, h5, h6, h7, h8, h9]

theorem c2_append_returns_ok_witness :
    (append_message 0 none (fun _ => some ChatEntry.defaultEntry)
        ⟨0, Role.user, [MessageContent.text "hi".data], [], []⟩).1 =
      .ok (append_message_to_buffer 0 (some ChatEntry.defaultEntry)
        ⟨0, Role.user, [MessageContent.text "hi".data], [], []⟩) ∧
    (append_message 0 none (fun _ => some ChatEntry.defaultEntry)
        ⟨0, Role.user, [MessageContent.text "hi".data], [], []⟩).2 = none :=
  c2_append_returns_ok 0 none (fun _ => some ChatEntry.defaultEntry)
    ⟨0, Role.user, [MessageContent.text "hi".data], [], []⟩ (fun i _ => by simp)

/-- C9: appending to a chat id with no history entry succeeds on the first
CAS attempt (the store still holds nothing), persists a freshly created
entry carrying that chat id with the message appended to its empty message
list, and returns it. -/
theorem c9_append_creates_chat (cid : Nat) (msg : Message)
    (casSees : Nat → Option ChatEntry) (h0 : casSees 0 = none) :
    (append_message cid none casSees msg).1 =
      .ok (append_message_to_buffer cid none msg) ∧
    (append_message cid none casSees msg).2 =
      some (append_message_to_buffer cid none msg) ∧
    (append_message_to_buffer cid none msg).id = cid ∧
    (append_message_to_buffer cid none msg).messages = [msg] := by
  have hrange : (List.range 10).map casSees =
      casSees 0 :: [casSees 1, casSees 2, casSees 3, casSees 4, casSees 5, casSees 6,
        casSees 7, casSees 8, casSees 9] := by
    rw [show List.range 10 = [0, 1, 2, 3, 4, 5, 6, 7, 8, 9] from by decide]
    rfl
  refine ⟨?_, ?_, ?_, ?_⟩
  · simp only [append_message, hrange, casLoop, h0, if_true]
  · simp only [append_message, hrange, casLoop, h0, if_true]
  · by_cases hu : msg.owner = Role.user
    · simp [append_message_to_buffer, hu, ChatEntry.defaultEntry]
    · simp [append_message_to_buffer, hu, ChatEntry.defaultEntry]
  · by_cases hu : msg.owner = Role.user
    · simp [append_message_to_buffer, hu, ChatEntry.defaultEntry]
    · simp [append_message_to_buffer, hu, ChatEntry.defaultEntry]

theorem c9_append_creates_chat_witness :
    (append_message 3 none (fun _ => none)
        ⟨0, Role.user, [MessageContent.text "hi".data], [], []⟩).2 =
      some (append_message_to_buffer 3 none
        ⟨0, Role.user, [MessageContent.text "hi".data], [], []⟩) ∧
    (append_message_to_buffer 3 none
        ⟨0, Role.user, [MessageContent.text "hi".data], [], []⟩).id = 3 :=
  ⟨(c9_append_creates_chat 3 ⟨0, Role.user, [MessageContent.text "hi".data], [], []⟩
      (fun _ => none) rfl).2.1,
   (c9_append_creates_chat 3 ⟨0, Role.user, [MessageContent.text "hi".data], [], []⟩
      (fun _ => none) rfl).2.2.1⟩

/-- C1 counterexample: it is not the case that after an accepted abort no
further packet with the aborted request id reaches the client.  Aborting
request 7 of connection 0 before any item is polled still delivers the
unconditional `StreamEnd` packet carrying `request_id = 7` (http_core.rs
lines 141-149 run after the abortable loop regardless of why it ended). -/
theorem c1_counterexample :
    ¬ (∀ (cid rid n : Nat) (items : List (Except (List Char) ChatEvent)),
        sentAfterAbort cid rid items n = []) := by
  intro h
  exact absurd (h 0 7 0 [.ok (ChatEvent.contentDelta "x".data)]) (by decide)

/-- C1 (amended): after an accepted abort, exactly one further packet with
the aborted request id is delivered: the final `StreamEnd` frame.  No
content, tool or usage event of the aborted request follows the abort. -/
theorem c1_abort_stops_stream (cid rid n : Nat)
    (items : List (Except (List Char) ChatEvent)) :
    sentAfterAbort cid rid items n = [⟨cid, rid, ChatEvent.streamEnd⟩] := by
  unfold sentAfterAbort handle_stream
  exact List.drop_left _ _

/-- C8: the blob-write quota of the sandboxed JS run is not enforced.
`op_save_blob` removes the `Counter` from the op state via `try_take` and
does not put it back on the `MaxTries` early return, so the count restarts:
41 consecutive `save_blob("asset", ...)` calls perform 40 writes (20, one
`MaxTries` failure, then 20 more) instead of capping at 20.  `op_save_svg`
saves to the image store without consulting the counter at all: 21
`save_svg` calls all succeed and write 21 blobs. -/
theorem c8_quota_not_enforced :
    totalBlobWrites (runJsOps initJsRun
      (List.replicate 41 (JsOp.saveBlob "asset".data true [5]))).1 = 40 ∧
    (runJsOps initJsRun (List.replicate 41 (JsOp.saveBlob "asset".data true [5]))).2 =
      List.replicate 20 true ++ [false] ++ List.replicate 20 true ∧
    totalBlobWrites (runJsOps initJsRun
      (List.replicate 21 (JsOp.saveSvg (some [1])))).1 = 21 ∧
    (runJsOps initJsRun (List.replicate 21 (JsOp.saveSvg (some [1])))).2 =
      List.replicate 21 true := by decide

end QLens
